import Mathlib

/-!
Verification of the room-price-processor pipeline (src/main.py).

The program is a linear batch transform over JSON documents:
`DataLoader.validate_data` checks the shape of the input document,
`RoomProcessor` computes the cheapest room and per-room totals with tax,
and `OutputHandler.save_output` serializes the two results with
`json.dump(..., indent=4)`.

Modeling conventions:
* Python `float` values are modeled by `PyFloat`: an exact rational for the
  finite case plus `inf`, `ninf` and `nan` with IEEE comparison/addition
  behaviour.  Finite arithmetic is exact rational arithmetic (every decimal
  literal appearing in the program's data is an exact rational); binary
  rounding of doubles is not modeled.
* Python's `ValueError` (the spec's `DataError`), `TypeError`, `KeyError`,
  `IndexError` and `AttributeError` are constructors of `PyError`.
  `json.JSONDecodeError` is a subclass of `ValueError`, hence modeled as
  `valueError`.
* JSON values are the mutual inductive `JValue`/`JList`/`JObj`; a `JObj`
  keeps insertion order, like a Python `dict`.
* `json.loads` and `json.dump(indent=4)` are modeled by `parseJson` and
  `printJson` below.
-/

/-- Model of a Python `float`: exact rational for finite values plus the
IEEE special values. -/
inductive PyFloat where
  | fin (q : ℚ)
  | inf
  | ninf
  | nan
  deriving DecidableEq, Repr

/-- IEEE `<` on Python floats: any comparison involving `nan` is false. -/
def PyFloat.lt : PyFloat → PyFloat → Bool
  | .fin a, .fin b => a < b
  | .fin _, .inf => true
  | .ninf, .fin _ => true
  | .ninf, .inf => true
  | _, _ => false

/-- IEEE `+` on Python floats (finite arithmetic taken exact). -/
def PyFloat.add : PyFloat → PyFloat → PyFloat
  | .nan, _ => .nan
  | _, .nan => .nan
  | .inf, .ninf => .nan
  | .ninf, .inf => .nan
  | .inf, _ => .inf
  | _, .inf => .inf
  | .ninf, _ => .ninf
  | _, .ninf => .ninf
  | .fin a, .fin b => .fin (a + b)

/-- Round a rational to the nearest integer, ties to even
(Python's rounding mode for `round`). -/
def rndHalfEven (x : ℚ) : ℤ :=
  let f : ℤ := ⌊x⌋
  let r : ℚ := x - f
  if r < 1/2 then f
  else if 1/2 < r then f + 1
  else if f % 2 = 0 then f else f + 1

/-- Python `round(x, 2)` on a float; `round(inf, 2) = inf`, `round(nan, 2) = nan`. -/
def PyFloat.round2 : PyFloat → PyFloat
  | .fin q => .fin ((rndHalfEven (q * 100) : ℚ) / 100)
  | x => x

mutual
/-- A JSON value as produced by Python's `json.load`: `None`, `bool`, `int`,
`float`, `str`, `list`, `dict` (insertion-ordered). -/
inductive JValue where
  | null
  | bool (b : Bool)
  | int (n : ℤ)
  | num (x : PyFloat)
  | str (s : String)
  | arr (xs : JList)
  | obj (kvs : JObj)
  deriving DecidableEq, Repr
/-- A list of JSON values. -/
inductive JList where
  | nil
  | cons (v : JValue) (rest : JList)
  deriving DecidableEq, Repr
/-- An insertion-ordered association list of JSON key/value pairs. -/
inductive JObj where
  | nil
  | cons (k : String) (v : JValue) (rest : JObj)
  deriving DecidableEq, Repr
end

/-- Build a `JObj` from a Lean list of pairs. -/
def JObj.ofList : List (String × JValue) → JObj
  | [] => .nil
  | (k, v) :: rest => .cons k v (JObj.ofList rest)

/-- Build a `JList` from a Lean list. -/
def JList.ofList : List JValue → JList
  | [] => .nil
  | v :: rest => .cons v (JList.ofList rest)

/-- Key membership in a `JObj` (Python `k in d`). -/
def JObj.hasKey : JObj → String → Bool
  | .nil, _ => false
  | .cons k _ rest, key => k == key || JObj.hasKey rest key

/-- Lookup of the first binding of a key (Python `d[k]` when present). -/
def JObj.lookup : JObj → String → Option JValue
  | .nil, _ => none
  | .cons k v rest, key => if k == key then some v else JObj.lookup rest key

/-- The keys of a `JObj`, in order. -/
def JObj.keys : JObj → List String
  | .nil => []
  | .cons k _ rest => k :: JObj.keys rest

/-- Python `dict` assignment `d[k] = v`: replace the value at the first
occurrence of `k`, keeping its position, else append the binding. -/
def dictInsert : JObj → String → JValue → JObj
  | .nil, k, v => .cons k v .nil
  | .cons k2 v2 rest, k, v =>
      if k2 == k then .cons k2 v rest else .cons k2 v2 (dictInsert rest k v)

/-- Fold a pair list into a Python dict: later duplicate keys overwrite in
place. This is how `json.loads` builds objects. -/
def dedupAux : JObj → JObj → JObj
  | acc, .nil => acc
  | acc, .cons k v rest => dedupAux (dictInsert acc k v) rest

/-- Python-dict normalization of a parsed pair list. -/
def dedup (o : JObj) : JObj := dedupAux .nil o

/-- Number of elements of a `JList`. -/
def JList.length : JList → Nat
  | .nil => 0
  | .cons _ rest => 1 + JList.length rest

/-- Element at index `i` of a `JList`. -/
def JList.get? : JList → Nat → Option JValue
  | .nil, _ => none
  | .cons v _, 0 => some v
  | .cons _ rest, i + 1 => JList.get? rest i

mutual
/-- Node count of a JSON value (the measure used for parser fuel). -/
def jsize : JValue → Nat
  | .arr xs => 1 + lsize xs
  | .obj kvs => 1 + osize kvs
  | _ => 1
/-- Node count of a JSON list. -/
def lsize : JList → Nat
  | .nil => 0
  | .cons v rest => 1 + jsize v + lsize rest
/-- Node count of a JSON object. -/
def osize : JObj → Nat
  | .nil => 0
  | .cons _ v rest => 1 + jsize v + osize rest
end

/-! ### Decimal digits -/

/-- The character of a decimal digit. -/
def digitChar (d : Nat) : Char := Char.ofNat (48 + d)

/-- Digits of `n`, most significant first, in front of `acc`; `fuel`-bounded
structural recursion so that it reduces in the kernel. -/
def natCharsAux : Nat → Nat → List Char → List Char
  | 0, _, acc => acc
  | fuel + 1, n, acc =>
      if n < 10 then digitChar n :: acc
      else natCharsAux fuel (n / 10) (digitChar (n % 10) :: acc)

/-- The decimal digits of `n`, most significant first (`0` prints as `"0"`). -/
def natChars (n : Nat) : List Char := natCharsAux (n + 1) n []

/-- Numeric value of an ASCII digit character. -/
def digitVal (c : Char) : Nat := c.toNat - 48

/-- Value of a most-significant-first digit string. -/
def digitsToNat (ds : List Char) : Nat :=
  ds.foldl (fun a c => 10 * a + digitVal c) 0

/-! ### Printing numbers the way `json.dump` does -/

/-- Decimal representation of a rational: the least `e` with
`q * 10 ^ e` integral, paired with that integer, if one exists below the
search bound (every value a Python float can take has one). -/
def decimalRep (q : ℚ) : Option (ℤ × ℕ) :=
  ((List.range (q.den + 1)).find? (fun e => (q * 10 ^ e).den == 1)).map
    (fun e => ((q * 10 ^ e).num, e))

/-- Digit string of an integer (Python `repr` of an `int`). -/
def intChars (n : ℤ) : List Char :=
  if n < 0 then '-' :: natChars n.natAbs else natChars n.natAbs

/-- Digit string of a nonnegative decimal `m / 10 ^ e` with `e > 0`:
the digits of `m` padded to at least `e + 1` digits, with a decimal point
inserted before the last `e` of them. -/
def decChars (m : ℕ) (e : ℕ) : List Char :=
  let ds := natChars m
  let full := List.replicate (e + 1 - ds.length) '0' ++ ds
  full.take (full.length - e) ++ '.' :: full.drop (full.length - e)

/-- The text `json.dump` writes for a Python float.  A finite value is
written as an exact decimal (`repr` of a double is its shortest exact
decimal; every double is a finite decimal, so `decimalRep` succeeds on
every value actually arising from the program).  The special values are
written `Infinity`, `-Infinity` and `NaN`, as CPython does. -/
def floatChars : PyFloat → List Char
  | .inf => ['I', 'n', 'f', 'i', 'n', 'i', 't', 'y']
  | .ninf => ['-', 'I', 'n', 'f', 'i', 'n', 'i', 't', 'y']
  | .nan => ['N', 'a', 'N']
  | .fin q =>
      match decimalRep q with
      | some (m, 0) => intChars m ++ ['.', '0']
      | some (m, e + 1) =>
          if m < 0 then '-' :: decChars m.natAbs (e + 1)
          else decChars m.natAbs (e + 1)
      | none => ['0']

/-- A character `json.dump` writes verbatim inside a string literal:
printable ASCII other than the quote and the backslash. -/
def simpleChar (c : Char) : Bool :=
  32 ≤ c.toNat && c.toNat ≤ 126 && c != '\x22' && c != '\\'

/-- Hexadecimal digit character. -/
def hexChar (d : Nat) : Char :=
  if d < 10 then digitChar d else Char.ofNat (87 + d)

/-- Four-digit hexadecimal rendering of a code unit. -/
def hex4 (n : Nat) : List Char :=
  [hexChar (n / 4096 % 16), hexChar (n / 256 % 16), hexChar (n / 16 % 16),
   hexChar (n % 16)]

/-- The escape `json.dump` (with its default `ensure_ascii=True`) writes for
one character. -/
def escChar (c : Char) : List Char :=
  if c = '\x22' then ['\\', '\x22']
  else if c = '\\' then ['\\', '\\']
  else if c = '\n' then ['\\', 'n']
  else if c = '\t' then ['\\', 't']
  else if c = '\r' then ['\\', 'r']
  else if c = '\x08' then ['\\', 'b']
  else if c = '\x0c' then ['\\', 'f']
  else if c.toNat < 32 || 126 < c.toNat then
    if c.toNat ≤ 65535 then '\\' :: 'u' :: hex4 c.toNat
    else
      '\\' :: 'u' :: hex4 (55296 + (c.toNat - 65536) / 1024) ++
      '\\' :: 'u' :: hex4 (56320 + (c.toNat - 65536) % 1024)
  else [c]

/-- Escape a character sequence. -/
def escapeChars : List Char → List Char
  | [] => []
  | c :: rest => escChar c ++ escapeChars rest

/-- The text of a JSON string literal. -/
def strChars (s : String) : List Char :=
  '\x22' :: escapeChars s.data ++ ['\x22']

/-- A newline followed by the 4-space indentation of level `k`, as
`json.dump(..., indent=4)` emits between items. -/
def nlIndent (k : Nat) : List Char := '\n' :: List.replicate (4 * k) ' '

mutual
/-- The text `json.dump(v, indent=4)` writes for `v` at indentation
level `k`. -/
def printValue : Nat → JValue → List Char
  | _, .null => ['n', 'u', 'l', 'l']
  | _, .bool true => ['t', 'r', 'u', 'e']
  | _, .bool false => ['f', 'a', 'l', 's', 'e']
  | _, .int n => intChars n
  | _, .num x => floatChars x
  | _, .str s => strChars s
  | _, .arr .nil => ['[', ']']
  | k, .arr (.cons v rest) =>
      '[' :: nlIndent (k + 1) ++ printValue (k + 1) v ++
      printListRest (k + 1) rest ++ nlIndent k ++ [']']
  | _, .obj .nil => ['\x7b', '\x7d']
  | k, .obj (.cons key v rest) =>
      '\x7b' :: nlIndent (k + 1) ++ strChars key ++ ':' :: ' ' ::
      printValue (k + 1) v ++ printObjRest (k + 1) rest ++ nlIndent k ++ ['\x7d']
/-- The text for the remaining elements of a non-empty array. -/
def printListRest : Nat → JList → List Char
  | _, .nil => []
  | k, .cons v rest =>
      ',' :: nlIndent k ++ printValue k v ++ printListRest k rest
/-- The text for the remaining members of a non-empty object. -/
def printObjRest : Nat → JObj → List Char
  | _, .nil => []
  | k, .cons key v rest =>
      ',' :: nlIndent k ++ strChars key ++ ':' :: ' ' ::
      printValue k v ++ printObjRest k rest
end

/-- `json.dump(v, outfile, indent=4)`: the full text written for `v`. -/
def printJson (v : JValue) : String := String.mk (printValue 0 v)

/-! ### Parsing JSON (model of `json.loads`) -/

/-- JSON whitespace. -/
def isWsChar (c : Char) : Bool :=
  c == ' ' || c == '\t' || c == '\n' || c == '\r'

/-- Drop leading JSON whitespace. -/
def skipWs (cs : List Char) : List Char := cs.dropWhile isWsChar

/-- Value of a hexadecimal digit character, if it is one. -/
def hexVal (c : Char) : Option Nat :=
  if 48 ≤ c.toNat && c.toNat ≤ 57 then some (c.toNat - 48)
  else if 97 ≤ c.toNat && c.toNat ≤ 102 then some (c.toNat - 87)
  else if 65 ≤ c.toNat && c.toNat ≤ 70 then some (c.toNat - 55)
  else none

/-- Does `hay` start with `pat`? -/
def listStartsWith : List Char → List Char → Bool
  | [], _ => true
  | _, [] => false
  | a :: as, b :: bs => a == b && listStartsWith as bs

/-- Does the list start with this character? -/
def headIs (c : Char) : List Char → Bool
  | [] => false
  | c2 :: _ => c2 == c

/-- Decode four hexadecimal digit characters into a code unit. -/
def decodeHex (h1 h2 h3 h4 : Char) : Option Nat :=
  match hexVal h1, hexVal h2, hexVal h3, hexVal h4 with
  | some a, some b, some c, some d => some (4096 * a + 256 * b + 16 * c + d)
  | _, _, _, _ => none

/-- The character a single-letter JSON escape denotes. -/
def namedEsc (e : Char) : Option Char :=
  if e = '\x22' then some '\x22'
  else if e = '\\' then some '\\'
  else if e = '/' then some '/'
  else if e = 'b' then some '\x08'
  else if e = 'f' then some '\x0c'
  else if e = 'n' then some '\n'
  else if e = 'r' then some '\r'
  else if e = 't' then some '\t'
  else none

/-- Decode a `\uXXXX` escape expected to carry a low surrogate: the six
characters must be a backslash, a `u` and four hex digits whose value lies
in the low-surrogate range. -/
def decodeLow (e2 u2 h5 h6 h7 h8 : Char) : Option Nat :=
  if e2 = '\\' ∧ u2 = 'u' then
    match decodeHex h5 h6 h7 h8 with
    | some m => if 56320 ≤ m ∧ m ≤ 57343 then some m else none
    | none => none
  else none

/-- After a `\uXXXX` escape decoded to a high surrogate `n`, read the
following `\uXXXX` low-surrogate escape, recombine the pair into the
astral code point it encodes, and hand the character to the continuation
`k` (the string scanner at the remaining fuel). -/
def parsePair (k : List Char → List Char → Option (String × List Char))
    (acc : List Char) (n : Nat) (r3 : List Char) : Option (String × List Char) :=
  match r3 with
  | e2 :: u2 :: h5 :: h6 :: h7 :: h8 :: r4 =>
      (match decodeLow e2 u2 h5 h6 h7 h8 with
       | some m =>
          let u := 65536 + (n - 55296) * 1024 + (m - 56320)
          if h : u.isValidChar then k (Char.ofNatAux u h :: acc) r4 else none
       | none => none)
  | _ => none

/-- Decode the four hex digits after `\u`.  A value outside the surrogate
ranges is a character of the string; a high surrogate must be followed by
a low-surrogate escape and the pair is recombined, as CPython's scanner
does.  `k` is the continuation scanning the rest of the literal. -/
def parseU (k : List Char → List Char → Option (String × List Char))
    (acc : List Char) (r2 : List Char) : Option (String × List Char) :=
  match r2 with
  | h1 :: h2 :: h3 :: h4 :: r3 =>
      (match decodeHex h1 h2 h3 h4 with
       | some n =>
          if 55296 ≤ n ∧ n ≤ 56319 then parsePair k acc n r3
          else if h : n.isValidChar then k (Char.ofNatAux n h :: acc) r3
          else none
       | none => none)
  | _ => none

/-- Body of a JSON string literal after the opening quote: characters
accumulate (reversed) in `acc` until the closing quote.  Escape sequences
are decoded; a raw control character is a parse error, as in the strict
mode `json.loads` uses.  A `\uXXXX` escape in the high-surrogate range
immediately followed by one in the low-surrogate range is recombined into
the single astral code point the pair encodes, as CPython's scanner does.
(CPython keeps an unpaired surrogate as a lone surrogate character in the
result; a Lean `String` holds only Unicode scalar values, so that one
unrepresentable case is a parse failure here instead.)  Each step consumes
at least one character, so fuel exceeding the text length suffices. -/
def parseStrAux : Nat → List Char → List Char → Option (String × List Char)
  | 0, _, _ => none
  | fuel + 1, acc, cs =>
      match cs with
      | [] => none
      | c :: r =>
          if c = '\x22' then some (String.mk acc.reverse, r)
          else if c = '\\' then
            match r with
            | [] => none
            | e :: r2 =>
                if e = 'u' then parseU (parseStrAux fuel) acc r2
                else match namedEsc e with
                  | some d => parseStrAux fuel (d :: acc) r2
                  | none => none
          else if c.toNat < 32 then none
          else parseStrAux fuel (c :: acc) r
termination_by structural fuel acc cs => fuel

/-- Scan a JSON string literal body with sufficient fuel. -/
def parseStr (cs : List Char) : Option (String × List Char) :=
  parseStrAux (cs.length + 1) [] cs

/-- Is this an ASCII digit? -/
def isDigitChar (c : Char) : Bool := 48 ≤ c.toNat && c.toNat ≤ 57

/-- Optional exponent part of a JSON number; `base` is the signed
significand value. -/
def parseExpPart (neg : Bool) (base : ℚ) (cs : List Char) :
    Option (JValue × List Char) :=
  let signed : ℚ := if neg then -base else base
  if headIs 'e' cs || headIs 'E' cs then
    let r := cs.tail
    let esign := headIs '-' r || headIs '+' r
    let eneg := headIs '-' r
    let r1 := if esign then r.tail else r
    let ds := r1.takeWhile isDigitChar
    let r2 := r1.dropWhile isDigitChar
    if ds.isEmpty then none
    else
      let ex := digitsToNat ds
      let q : ℚ := if eneg then signed / 10 ^ ex else signed * 10 ^ ex
      some (.num (.fin q), r2)
  else some (.num (.fin signed), cs)

/-- A JSON number starting at `cs` (whitespace already skipped).  A literal
without fraction or exponent parses as a Python `int`, any other as a
`float`. -/
def parseNumber (cs : List Char) : Option (JValue × List Char) :=
  let neg := headIs '-' cs
  let cs1 := if neg then cs.tail else cs
  let ds := cs1.takeWhile isDigitChar
  let r1 := cs1.dropWhile isDigitChar
  if ds.isEmpty then none
  else
    let ip := digitsToNat ds
    if headIs '.' r1 then
      let r2 := r1.tail
      let fs := r2.takeWhile isDigitChar
      let r3 := r2.dropWhile isDigitChar
      if fs.isEmpty then none
      else
        let base : ℚ := (ip : ℚ) + (digitsToNat fs : ℚ) / 10 ^ fs.length
        parseExpPart neg base r3
    else if headIs 'e' r1 || headIs 'E' r1 then parseExpPart neg (ip : ℚ) r1
    else some (.int (if neg then -(ip : ℤ) else (ip : ℤ)), r1)

mutual
/-- Fuel-bounded recursive-descent JSON value parser; `fuel` larger than the
node count of the value suffices. -/
def parseValue : Nat → List Char → Option (JValue × List Char)
  | 0, _ => none
  | fuel + 1, cs =>
      let cs0 := skipWs cs
      if headIs '\x7b' cs0 then
        let cs1 := skipWs cs0.tail
        if headIs '\x7d' cs1 then some (.obj .nil, cs1.tail)
        else
          match parsePairs fuel cs1 with
          | some (kvs, r3) => some (.obj (dedup kvs), r3)
          | none => none
      else if headIs '[' cs0 then
        let cs1 := skipWs cs0.tail
        if headIs ']' cs1 then some (.arr .nil, cs1.tail)
        else
          match parseElems fuel cs1 with
          | some (xs, r3) => some (.arr xs, r3)
          | none => none
      else if headIs '\x22' cs0 then
        match parseStr cs0.tail with
        | some (s, r2) => some (.str s, r2)
        | none => none
      else if listStartsWith ['t', 'r', 'u', 'e'] cs0 then some (.bool true, cs0.drop 4)
      else if listStartsWith ['f', 'a', 'l', 's', 'e'] cs0 then
        some (.bool false, cs0.drop 5)
      else if listStartsWith ['n', 'u', 'l', 'l'] cs0 then some (.null, cs0.drop 4)
      else if listStartsWith ['N', 'a', 'N'] cs0 then some (.num .nan, cs0.drop 3)
      else if listStartsWith ['I', 'n', 'f', 'i', 'n', 'i', 't', 'y'] cs0 then
        some (.num .inf, cs0.drop 8)
      else if listStartsWith ['-', 'I', 'n', 'f', 'i', 'n', 'i', 't', 'y'] cs0 then
        some (.num .ninf, cs0.drop 9)
      else parseNumber cs0
/-- Members of an object, the first key expected immediately at the head;
consumes the closing brace. -/
def parsePairs : Nat → List Char → Option (JObj × List Char)
  | 0, _ => none
  | fuel + 1, cs =>
      if headIs '\x22' cs then
        match parseStr cs.tail with
        | some (k, r1) =>
            let w1 := skipWs r1
            if headIs ':' w1 then
              match parseValue fuel w1.tail with
              | some (v, r3) =>
                  let w2 := skipWs r3
                  if headIs ',' w2 then
                    match parsePairs fuel (skipWs w2.tail) with
                    | some (rest, r5) => some (.cons k v rest, r5)
                    | none => none
                  else if headIs '\x7d' w2 then some (.cons k v .nil, w2.tail)
                  else none
              | none => none
            else none
        | none => none
      else none
/-- Elements of an array, the first element expected at the head; consumes
the closing bracket. -/
def parseElems : Nat → List Char → Option (JList × List Char)
  | 0, _ => none
  | fuel + 1, cs =>
      match parseValue fuel cs with
      | some (v, r) =>
          let w := skipWs r
          if headIs ',' w then
            match parseElems fuel w.tail with
            | some (rest, r3) => some (.cons v rest, r3)
            | none => none
          else if headIs ']' w then some (.cons v .nil, w.tail)
          else none
      | none => none
end

/-- `json.loads` on a text: parse one value and require only whitespace
after it. -/
def parseJson (s : String) : Option JValue :=
  match parseValue (s.data.length + 1) s.data with
  | some (v, rest) => if skipWs rest = [] then some v else none
  | none => none

/-! ### Python runtime model -/

/-- Python exception kinds the program can raise.  `valueError` is the
spec's `DataError` (all validation messages, and `json.JSONDecodeError`,
which subclasses `ValueError`); the others are distinct builtin exception
types. -/
inductive PyError where
  | valueError (msg : String)
  | typeError (msg : String)
  | keyError (msg : String)
  | indexError (msg : String)
  | attributeError (msg : String)
  deriving DecidableEq, Repr

/-- Is this exception the spec's `DataError` (Python `ValueError`)? -/
def PyError.isDataError : PyError → Bool
  | .valueError _ => true
  | _ => false

/-- Whitespace stripped by Python's `float(str)`. -/
def pyWsChar (c : Char) : Bool :=
  c == ' ' || c == '\t' || c == '\n' || c == '\r' || c == '\x0b' || c == '\x0c'

/-- Strip Python float-literal whitespace from both ends. -/
def stripWsChars (cs : List Char) : List Char :=
  ((cs.dropWhile pyWsChar).reverse.dropWhile pyWsChar).reverse

/-- ASCII lowercase of a character. -/
def lowerChar (c : Char) : Char :=
  if 65 ≤ c.toNat && c.toNat ≤ 90 then Char.ofNat (c.toNat + 32) else c

/-- Optional exponent tail of a Python float literal; must consume the whole
input. -/
def expTailQ (base : ℚ) (cs : List Char) : Option ℚ :=
  match cs with
  | [] => some base
  | 'e' :: r | 'E' :: r =>
      let (eneg, r1) :=
        match r with
        | '-' :: r2 => (true, r2)
        | '+' :: r2 => (false, r2)
        | _ => (false, r)
      let ds := r1.takeWhile isDigitChar
      let r2 := r1.dropWhile isDigitChar
      if ds.isEmpty || !r2.isEmpty then none
      else
        let ex := digitsToNat ds
        some (if eneg then base / 10 ^ ex else base * 10 ^ ex)
  | _ => none

/-- The decimal part of a Python float literal: `digits [. digits]` or
`. digits`, at least one digit overall, then an optional exponent. -/
def floatOfDecimal (cs : List Char) : Option ℚ :=
  let ds := cs.takeWhile isDigitChar
  let r1 := cs.dropWhile isDigitChar
  match r1 with
  | '.' :: r2 =>
      let fs := r2.takeWhile isDigitChar
      let r3 := r2.dropWhile isDigitChar
      if ds.isEmpty && fs.isEmpty then none
      else expTailQ ((digitsToNat ds : ℚ) + (digitsToNat fs : ℚ) / 10 ^ fs.length) r3
  | _ => if ds.isEmpty then none else expTailQ (digitsToNat ds : ℚ) r1

/-- Python `float(s)` on a string: optional sign, then `inf`, `infinity` or
`nan` (case-insensitive) or a decimal literal.  (Underscore digit grouping
and non-ASCII digits, which CPython also accepts, are not modeled.) -/
def pyFloatOfString (s : String) : Option PyFloat :=
  let cs := stripWsChars s.data
  let (neg, cs1) :=
    match cs with
    | '+' :: r => (false, r)
    | '-' :: r => (true, r)
    | _ => (false, cs)
  let low := cs1.map lowerChar
  if low = ['i', 'n', 'f'] || low = ['i', 'n', 'f', 'i', 'n', 'i', 't', 'y'] then
    some (if neg then .ninf else .inf)
  else if low = ['n', 'a', 'n'] then some .nan
  else (floatOfDecimal cs1).map (fun q => .fin (if neg then -q else q))

/-- Python's `float(x)` builtin on a JSON value: floats pass through, ints
and bools convert (`True` is `1`), strings parse, anything else is a
`TypeError`. -/
def pyFloatFn : JValue → Except PyError PyFloat
  | .num x => .ok x
  | .int n => .ok (.fin n)
  | .bool b => .ok (.fin (if b then 1 else 0))
  | .str s =>
      match pyFloatOfString s with
      | some x => .ok x
      | none => .error (.valueError ("could not convert string to float: " ++ s))
  | .null => .error (.typeError "float() argument must be a string or a real number, not NoneType")
  | .arr _ => .error (.typeError "float() argument must be a string or a real number, not list")
  | .obj _ => .error (.typeError "float() argument must be a string or a real number, not dict")

/-- Value membership in a `JList` (Python `x in list`). -/
def JList.containsVal : JList → JValue → Bool
  | .nil, _ => false
  | .cons v rest, x => v == x || JList.containsVal rest x

/-- Substring test (Python `sub in s` on strings). -/
def isSubstrOf (needle : List Char) : List Char → Bool
  | [] => listStartsWith needle []
  | c :: t => listStartsWith needle (c :: t) || isSubstrOf needle t

/-- Python `key in v` for a string key: key membership for a dict, value
membership for a list, substring test for a string, `TypeError` otherwise. -/
def pyContains (v : JValue) (key : String) : Except PyError Bool :=
  match v with
  | .obj o => .ok (o.hasKey key)
  | .arr xs => .ok (xs.containsVal (.str key))
  | .str s => .ok (isSubstrOf key.data s.data)
  | _ => .error (.typeError "argument of type is not iterable")

/-- Python `v[key]` with a string key: dict lookup (`KeyError` when the key
is absent), `TypeError` on any non-dict. -/
def pyGetItem (v : JValue) (key : String) : Except PyError JValue :=
  match v with
  | .obj o =>
      match o.lookup key with
      | some x => .ok x
      | none => .error (.keyError key)
  | _ => .error (.typeError "object is not subscriptable with a string key")

/-- Python `v[i]` with a nonnegative integer index. -/
def pyIndexItem (v : JValue) (i : Nat) : Except PyError JValue :=
  match v with
  | .arr xs =>
      match xs.get? i with
      | some x => .ok x
      | none => .error (.indexError "list index out of range")
  | .obj _ => .error (.keyError (String.mk (natChars i)))
  | _ => .error (.typeError "object is not subscriptable")

/-- Python `v.items()` / `v.values()`: only a dict has them; anything else
raises `AttributeError`. -/
def pyItems (v : JValue) : Except PyError JObj :=
  match v with
  | .obj o => .ok o
  | _ => .error (.attributeError "object has no attribute items")

/-- Python truthiness of a JSON value. -/
def truthy : JValue → Bool
  | .null => false
  | .bool b => b
  | .int n => n != 0
  | .num x =>
      match x with
      | .fin q => q != 0
      | _ => true
  | .str s => s != ""
  | .arr xs => xs != .nil
  | .obj o => o != .nil

/-- `isinstance(v, list)`. -/
def isListInst : JValue → Bool
  | .arr _ => true
  | _ => false

/-- `isinstance(v, dict)`. -/
def isDictInst : JValue → Bool
  | .obj _ => true
  | _ => false

/-- `isinstance(v, int)`.  Python's `bool` is a subclass of `int`, so both
`True` and `False` satisfy this check. -/
def isIntInst : JValue → Bool
  | .int _ => true
  | .bool _ => true
  | _ => false

/-- `json.loads(v)`: parses a string (`json.JSONDecodeError`, a subclass of
`ValueError`, on malformed text) and raises `TypeError` on any non-string
argument. -/
def jsonLoads (v : JValue) : Except PyError JValue :=
  match v with
  | .str s =>
      match parseJson s with
      | some j => .ok j
      | none => .error (.valueError "Expecting value: line 1 column 1 (char 0)")
  | .null => .error (.typeError "the JSON object must be str, bytes or bytearray, not NoneType")
  | .bool _ => .error (.typeError "the JSON object must be str, bytes or bytearray, not bool")
  | .int _ => .error (.typeError "the JSON object must be str, bytes or bytearray, not int")
  | .num _ => .error (.typeError "the JSON object must be str, bytes or bytearray, not float")
  | .arr _ => .error (.typeError "the JSON object must be str, bytes or bytearray, not list")
  | .obj _ => .error (.typeError "the JSON object must be str, bytes or bytearray, not dict")

/-- Equality of `Except` results is decidable componentwise. -/
instance {ε α : Type} [DecidableEq ε] [DecidableEq α] : DecidableEq (Except ε α) := fun a b =>
  match a, b with
  | .ok x, .ok y =>
      if h : x = y then .isTrue (by rw [h]) else .isFalse (by simp [h])
  | .error x, .error y =>
      if h : x = y then .isTrue (by rw [h]) else .isFalse (by simp [h])
  | .ok _, .error _ => .isFalse (by simp)
  | .error _, .ok _ => .isFalse (by simp)

/-! ### `DataLoader.validate_data` (src/main.py lines 62-116) -/

/-- The required record keys, in the order the source checks them. -/
def requiredKeys : List String :=
  ["shown_price", "net_price", "number_of_guests", "ext_data"]

/-- The message of the missing-key `ValueError`. -/
def missingKeyMsg (key : String) : String :=
  "Invalid data: Missing key \x27" ++ key ++ "\x27 in assignment results."

/-- Message for a bad `assignment_results` value. -/
def notListMsg : String := "Invalid data: \x27assignment_results\x27 must be a list."

/-- Message for an empty `assignment_results` list. -/
def emptyMsg : String := "Invalid data: \x27assignment_results\x27 is empty."

/-- Message for a bad `shown_price`. -/
def shownPriceMsg : String :=
  "Invalid data: \x27shown_price\x27 must be a non-empty dictionary."

/-- Message for a bad `net_price`. -/
def netPriceMsg : String :=
  "Invalid data: \x27net_price\x27 must be a non-empty dictionary."

/-- Message for a bad `number_of_guests`. -/
def guestsMsg : String := "Invalid data: \x27number_of_guests\x27 must be an integer."

/-- Message for a bad `ext_data`. -/
def extDataMsg : String :=
  "Invalid data: \x27ext_data\x27 must contain a \x27taxes\x27 dictionary."

/-- The inner `for key in required_keys` loop: raise on the first required
key not contained in the record. -/
def checkKeysPresent (item : JValue) : List String → Except PyError Unit
  | [] => .ok ()
  | key :: rest => do
      let c ← pyContains item key
      if c then checkKeysPresent item rest
      else .error (.valueError (missingKeyMsg key))

/-- The per-record checks of `validate_data`, in source order: the four
keys-present checks, then `shown_price` non-empty dict, `net_price`
non-empty dict, `number_of_guests` integer, `ext_data` dict containing
`taxes`. -/
def validateItem (item : JValue) : Except PyError Unit := do
  checkKeysPresent item requiredKeys
  let sp ← pyGetItem item "shown_price"
  if !isDictInst sp || !truthy sp then .error (.valueError shownPriceMsg)
  else do
    let np ← pyGetItem item "net_price"
    if !isDictInst np || !truthy np then .error (.valueError netPriceMsg)
    else do
      let g ← pyGetItem item "number_of_guests"
      if !isIntInst g then .error (.valueError guestsMsg)
      else do
        let ext ← pyGetItem item "ext_data"
        if !isDictInst ext then .error (.valueError extDataMsg)
        else do
          let c ← pyContains ext "taxes"
          if !c then .error (.valueError extDataMsg) else .ok ()

/-- The `for item in self.data["assignment_results"]` loop: the first
failing record raises. -/
def validateItems : JList → Except PyError Unit
  | .nil => .ok ()
  | .cons item rest => do
      validateItem item
      validateItems rest

/-- The array of a JSON value (meaningful after an `isinstance(·, list)`
check). -/
def JValue.toArr : JValue → JList
  | .arr xs => xs
  | _ => .nil

/-- `DataLoader.validate_data`: document-level checks
(`assignment_results` present and a list; non-empty), then the per-record
checks in order.  The first violation raises; nothing is aggregated. -/
def validate_data (data : JValue) : Except PyError Unit := do
  let c ← pyContains data "assignment_results"
  if !c then .error (.valueError notListMsg)
  else do
    let ar ← pyGetItem data "assignment_results"
    if !isListInst ar then .error (.valueError notListMsg)
    else if !truthy ar then .error (.valueError emptyMsg)
    else validateItems ar.toArr

/-! ### `RoomProcessor` (src/main.py lines 119-201) -/

/-- The state `RoomProcessor.__init__` builds: the four fields taken from
the record, with `taxes` the result of `json.loads` on
`ext_data["taxes"]`. -/
structure RoomProcessor where
  shown_prices : JValue
  net_prices : JValue
  taxes : JValue
  number_of_guests : JValue
  deriving DecidableEq, Repr

/-- `RoomProcessor.__init__`, with each attribute read in source order;
any exception (missing key, `json.loads` failure) propagates. -/
def RoomProcessor.init (assignment_results : JValue) : Except PyError RoomProcessor := do
  let sp ← pyGetItem assignment_results "shown_price"
  let np ← pyGetItem assignment_results "net_price"
  let ext ← pyGetItem assignment_results "ext_data"
  let rawTaxes ← pyGetItem ext "taxes"
  let taxes ← jsonLoads rawTaxes
  let g ← pyGetItem assignment_results "number_of_guests"
  .ok { shown_prices := sp, net_prices := np, taxes := taxes, number_of_guests := g }

/-- The `for room, price in self.shown_prices.items()` loop of
`find_cheapest_room`: track the strict minimum, first room wins ties. -/
def findCheapestLoop : JObj → PyFloat → String → Except PyError (PyFloat × String)
  | .nil, cp, cr => .ok (cp, cr)
  | .cons room priceV rest, cp, cr => do
      let price ← pyFloatFn priceV
      if price.lt cp then findCheapestLoop rest price room
      else findCheapestLoop rest cp cr

/-- `RoomProcessor.find_cheapest_room`: scan `shown_price`, starting from
`cheapest_price = float("inf")` and `cheapest_room_type = ""`, and return
the result dict with the price rounded to 2 decimals. -/
def RoomProcessor.find_cheapest_room (p : RoomProcessor) : Except PyError JValue := do
  let items ← pyItems p.shown_prices
  let r ← findCheapestLoop items .inf ""
  .ok (.obj (.cons "room_type" (.str r.2)
        (.cons "price" (.num r.1.round2)
          (.cons "number_of_guests" p.number_of_guests .nil))))

/-- `sum(float(value) for value in self.taxes.values())`: left-to-right sum
starting from `0`. -/
def sumTaxes : JObj → PyFloat → Except PyError PyFloat
  | .nil, acc => .ok acc
  | .cons _ v rest, acc => do
      let x ← pyFloatFn v
      sumTaxes rest (acc.add x)

/-- The `for room, net_price in self.net_prices.items()` loop of
`calculate_total_prices`: build the output dict
`room ↦ {net_price, total_price_with_taxes}` by Python dict assignment. -/
def calcTotalsLoop : JObj → PyFloat → JObj → Except PyError JObj
  | .nil, _, acc => .ok acc
  | .cons room netV rest, taxSum, acc => do
      let nv ← pyFloatFn netV
      let total := nv.add taxSum
      let entry : JValue := .obj (.cons "net_price" netV
        (.cons "total_price_with_taxes" (.num total.round2) .nil))
      calcTotalsLoop rest taxSum (dictInsert acc room entry)

/-- `RoomProcessor.calculate_total_prices`: sum all tax amounts once, then
for each room emit the original net price and the rounded total. -/
def RoomProcessor.calculate_total_prices (p : RoomProcessor) : Except PyError JValue := do
  let taxItems ← pyItems p.taxes
  let taxSum ← sumTaxes taxItems (.fin 0)
  let netItems ← pyItems p.net_prices
  let out ← calcTotalsLoop netItems taxSum .nil
  .ok (.obj out)

/-! ### `OutputHandler.save_output` and the `__main__` pipeline
(src/main.py lines 204-261) -/

/-- The `output_data` dict `save_output` serializes. -/
def outputDoc (cheapest_room total_prices : JValue) : JValue :=
  .obj (.cons "cheapest_room" cheapest_room
    (.cons "total_prices" total_prices .nil))

/-- A file system: a map from path to file content. -/
def FileSys : Type := String → Option String

/-- `OutputHandler.save_output`: open `path` in mode `"w"` (truncating any
existing file) and write `json.dump(output_data, ·, indent=4)`. -/
def save_output (fs : FileSys) (path : String) (cheapest_room total_prices : JValue) :
    FileSys :=
  fun p => if p = path then some (printJson (outputDoc cheapest_room total_prices))
           else fs p

/-- The expression `data["assignment_results"][0]` of `__main__`. -/
def firstRecord (data : JValue) : Except PyError JValue := do
  let ar ← pyGetItem data "assignment_results"
  pyIndexItem ar 0

/-- The processing stages of `__main__` after the document is loaded:
validate, take record 0, build the processor, compute both results.
Any exception propagates. -/
def runPipeline (data : JValue) : Except PyError (JValue × JValue) := do
  validate_data data
  let first ← firstRecord data
  let proc ← RoomProcessor.init first
  let cheapest ← proc.find_cheapest_room
  let totals ← proc.calculate_total_prices
  .ok (cheapest, totals)

/-- The full `__main__` body on an already-parsed input document: on
success `save_output` writes `output.json`; the top-level `except` catches
any exception, so on failure the file system is left untouched. -/
def mainRun (fs : FileSys) (data : JValue) : FileSys :=
  match runPipeline data with
  | .ok r => save_output fs "output.json" r.1 r.2
  | .error _ => fs

/-! ### Concrete documents and well-formedness -/

/-- The single record of the spec's Scenario A input document. -/
def scenarioARecord : JValue :=
  .obj (JObj.ofList [
    ("shown_price", .obj (JObj.ofList
      [("Standard", .str "100.00"), ("Deluxe", .str "150.00")])),
    ("net_price", .obj (JObj.ofList
      [("Standard", .str "90.00"), ("Deluxe", .str "130.00")])),
    ("number_of_guests", .int 2),
    ("ext_data", .obj (JObj.ofList
      [("taxes", .str "\x7b\"vat\":10.0,\"city_tax\":5.0\x7d")]))])

/-- The spec's Scenario A input document. -/
def scenarioADoc : JValue :=
  .obj (.cons "assignment_results" (.arr (.cons scenarioARecord .nil)) .nil)

/-- The cheapest-room result Scenario A expects. -/
def scenarioACheapest : JValue :=
  .obj (JObj.ofList [("room_type", .str "Standard"), ("price", .num (.fin 100)),
    ("number_of_guests", .int 2)])

/-- The total-prices result Scenario A expects. -/
def scenarioATotals : JValue :=
  .obj (JObj.ofList [
    ("Standard", .obj (JObj.ofList [("net_price", .str "90.00"),
      ("total_price_with_taxes", .num (.fin 105))])),
    ("Deluxe", .obj (JObj.ofList [("net_price", .str "130.00"),
      ("total_price_with_taxes", .num (.fin 145))]))])

/-- The spec's Scenario B input document: `assignment_results` present but
an empty list. -/
def scenarioBDoc : JValue :=
  .obj (.cons "assignment_results" (.arr .nil) .nil)

/-- Concatenation of `JList`s. -/
def jlAppend : JList → JList → JList
  | .nil, ys => ys
  | .cons x xs, ys => .cons x (jlAppend xs ys)

/-- Concatenation of `JObj`s. -/
def joAppend : JObj → JObj → JObj
  | .nil, ys => ys
  | .cons k v xs, ys => .cons k v (joAppend xs ys)

/-- Pairwise-distinct keys (what a Python `dict` guarantees). -/
def nodupKeys : JObj → Bool
  | .nil => true
  | .cons k _ rest => !rest.hasKey k && nodupKeys rest

/-- A finite Python float whose exact decimal expansion the printer can
find (true of every value a double can take). -/
def goodFloat : PyFloat → Bool
  | .fin q => (decimalRep q).isSome
  | _ => true

/-- All characters of a string printable ASCII without escapes. -/
def simpleStr (s : String) : Bool := s.data.all simpleChar

mutual
/-- A value in the fragment for which the `printJson`/`parseJson`
round-trip is proved: objects have distinct keys (what a Python `dict`
guarantees) and finite floats have an exact decimal expansion (true of
every value a double can take).  Strings are unrestricted.  Every output
document the program can hand to `json.dump` lies in this fragment. -/
def jgood : JValue → Bool
  | .null => true
  | .bool _ => true
  | .int _ => true
  | .num x => goodFloat x
  | .str _ => true
  | .arr xs => lgood xs
  | .obj kvs => nodupKeys kvs && ogood kvs
/-- `jgood` on every element. -/
def lgood : JList → Bool
  | .nil => true
  | .cons v rest => jgood v && lgood rest
/-- `jgood` on every value. -/
def ogood : JObj → Bool
  | .nil => true
  | .cons _ v rest => jgood v && ogood rest
end

/-- A document equal to Scenario A in its first record but with a second,
different (still valid) record appended. -/
def scenarioC8Doc : JValue :=
  .obj (.cons "assignment_results"
    (.arr (.cons scenarioARecord (.cons (
      .obj (JObj.ofList [
        ("shown_price", .obj (JObj.ofList [("Suite", .str "999.00")])),
        ("net_price", .obj (JObj.ofList [("Suite", .str "800.00")])),
        ("number_of_guests", .int 5),
        ("ext_data", .obj (JObj.ofList [("taxes", .str "ignored")]))])) .nil))) .nil)

/-- Did an `Except` computation succeed? -/
def exceptOk {α : Type} (e : Except PyError α) : Bool :=
  match e with
  | .ok _ => true
  | .error _ => false

/-- Do all values of the object convert under Python `float(·)`? -/
def allValsParse : JObj → Bool
  | .nil => true
  | .cons _ v rest => exceptOk (pyFloatFn v) && allValsParse rest

/-- The parsed (finite) float of every value of an object, in order;
`none` if some value does not convert to a finite float. -/
def finValsO : JObj → Option (List (String × ℚ))
  | .nil => some []
  | .cons k v rest =>
      match pyFloatFn v with
      | .ok (.fin q) => (finValsO rest).map (fun l => (k, q) :: l)
      | _ => none

/-- The pure content of the `find_cheapest_room` loop on parsed prices:
track the strict minimum left to right. -/
def minFold : List (String × ℚ) → ℚ → String → ℚ × String
  | [], c, r => (c, r)
  | (k, q) :: rest, c, r => if q < c then minFold rest q k else minFold rest c r

/-- The record `find_cheapest_room` returns. -/
def mkCheapObj (room : String) (price : PyFloat) (guests : JValue) : JValue :=
  .obj (.cons "room_type" (.str room)
    (.cons "price" (.num price) (.cons "number_of_guests" guests .nil)))

/-- The empty file system, for concrete write scenarios. -/
def emptyFs : FileSys := fun _ => none

/-! ## Theorems -/

/-! ### Dictionary lemmas -/

theorem lookup_dictInsert_self : ∀ (o : JObj) (k : String) (v : JValue),
    (dictInsert o k v).lookup k = some v
  | .nil, k, v => by simp [dictInsert, JObj.lookup]
  | .cons k2 v2 rest, k, v => by
      by_cases h : k2 == k
      · simp [dictInsert, JObj.lookup, h]
      · simp [dictInsert, JObj.lookup, h, lookup_dictInsert_self rest k v]

theorem lookup_dictInsert_ne : ∀ (o : JObj) (k k2 : String) (v : JValue), k2 ≠ k →
    (dictInsert o k v).lookup k2 = o.lookup k2
  | .nil, k, k2, v, h => by
      simp [dictInsert, JObj.lookup]
      intro he; exact absurd he.symm h
  | .cons k3 v3 rest, k, k2, v, h => by
      by_cases h3 : k3 == k
      · have : ¬ (k3 == k2) := by
          simp only [beq_iff_eq] at h3 ⊢
          rw [h3]; exact fun he => h he.symm
        simp [dictInsert, JObj.lookup, h3, this]
      · by_cases h32 : k3 == k2
        · simp [dictInsert, JObj.lookup, h3, h32]
        · simp [dictInsert, JObj.lookup, h3, h32, lookup_dictInsert_ne rest k k2 v h]

theorem hasKey_of_lookup : ∀ (o : JObj) (k : String) (v : JValue),
    o.lookup k = some v → o.hasKey k = true
  | .cons k2 v2 rest, k, v, h => by
      by_cases h2 : k2 == k
      · simp [JObj.hasKey, h2]
      · simp only [JObj.lookup, h2, if_neg] at h
        simp [JObj.hasKey, h2, hasKey_of_lookup rest k v (by simpa using h)]

/-! ### Claim theorems: end-to-end scenarios -/

/-- Claim C1: on the Scenario A input document the pipeline produces
cheapest_room = (Standard, 100.0, 2 guests) and total_prices keeping the
original net-price strings with totals 105.0 and 145.0. -/
theorem scenarioA_end_to_end :
    runPipeline scenarioADoc = .ok (scenarioACheapest, scenarioATotals) := by
  with_unfolding_all decide

/-- Claim C6: on a document whose `assignment_results` is an empty list,
the pipeline raises the empty-list `DataError` and the writer never runs:
the file system is unchanged. -/
theorem scenarioB_no_output (fs : FileSys) :
    runPipeline scenarioBDoc = .error (.valueError emptyMsg) ∧
    (PyError.valueError emptyMsg).isDataError = true ∧
    mainRun fs scenarioBDoc = fs := by
  have h : runPipeline scenarioBDoc = .error (.valueError emptyMsg) := by
    with_unfolding_all decide
  exact ⟨h, rfl, by simp [mainRun, h]⟩

/-- Claim C8: the output depends only on the first record: two validated
documents with equal first `assignment_results` records produce the same
pipeline result and the same written files. -/
theorem first_record_determines_output (d1 d2 : JValue)
    (h1 : validate_data d1 = .ok ()) (h2 : validate_data d2 = .ok ())
    (hf : firstRecord d1 = firstRecord d2) :
    runPipeline d1 = runPipeline d2 ∧ ∀ fs : FileSys, mainRun fs d1 = mainRun fs d2 := by
  have hr : runPipeline d1 = runPipeline d2 := by
    unfold runPipeline
    rw [h1, h2, hf]
  exact ⟨hr, fun fs => by unfold mainRun; rw [hr]⟩

/-- Witness for C8 at concrete documents differing only in a second
record. -/
theorem first_record_determines_output_witness :
    validate_data scenarioADoc = .ok () ∧ validate_data scenarioC8Doc = .ok () ∧
    firstRecord scenarioADoc = firstRecord scenarioC8Doc ∧
    runPipeline scenarioADoc = runPipeline scenarioC8Doc := by
  have g1 : validate_data scenarioADoc = .ok () := by with_unfolding_all decide
  have g2 : validate_data scenarioC8Doc = .ok () := by with_unfolding_all decide
  have g3 : firstRecord scenarioADoc = firstRecord scenarioC8Doc := by
    with_unfolding_all decide
  exact ⟨g1, g2, g3, (first_record_determines_output _ _ g1 g2 g3).1⟩

/-! ### `Except` bind reduction -/

@[simp] theorem pybind_ok {α β : Type} (a : α) (f : α → Except PyError β) :
    (do let x ← Except.ok a; f x) = f a := rfl

@[simp] theorem pybind_error {α β : Type} (e : PyError) (f : α → Except PyError β) :
    (do let x ← (Except.error e : Except PyError α); f x) = Except.error e := rfl

/-! ### Claims C4 and C2: `find_cheapest_room` -/

/-- Counterexample to C4 as stated: on an empty `shown_price` the loop body
never runs, `round(float("inf"), 2)` is still `inf`, and the method returns
normally (room type `""`, price `inf`) instead of raising a `DataError`. -/
theorem find_cheapest_empty_returns :
    (RoomProcessor.mk (.obj .nil) (.obj .nil) (.obj .nil) (.int 2)).find_cheapest_room =
      .ok (mkCheapObj "" .inf (.int 2)) := by
  with_unfolding_all decide

theorem findCheapestLoop_first_bad_string :
    ∀ (o1 : JObj) (room s : String) (rest : JObj) (cp : PyFloat) (cr : String),
    allValsParse o1 = true → pyFloatOfString s = none →
    findCheapestLoop (joAppend o1 (.cons room (.str s) rest)) cp cr =
      .error (.valueError ("could not convert string to float: " ++ s))
  | .nil, room, s, rest, cp, cr, _, hbad => by
      simp [joAppend, findCheapestLoop, pyFloatFn, hbad, Except.bind]
  | .cons k v o1, room, s, rest, cp, cr, hall, hbad => by
      simp only [allValsParse, Bool.and_eq_true] at hall
      obtain ⟨hok, hall1⟩ := hall
      cases hv : pyFloatFn v with
      | error e => rw [hv] at hok; simp [exceptOk] at hok
      | ok x =>
          simp only [joAppend, findCheapestLoop, hv, pybind_ok]
          by_cases hlt : x.lt cp = true
          · simp only [hlt, if_true]
            exact findCheapestLoop_first_bad_string o1 room s rest x k hall1 hbad
          · simp only [hlt, if_false]
            exact findCheapestLoop_first_bad_string o1 room s rest cp cr hall1 hbad

/-- Claim C4 (amended): `find_cheapest_room` does not raise on an empty
`shown_price`; it raises a `DataError` when a `shown_price` value is a
string that does not convert to a float (the first such value, all values
before it converting). -/
theorem find_cheapest_bad_string_data_error (p : RoomProcessor) (o1 : JObj)
    (room s : String) (rest : JObj)
    (hsp : p.shown_prices = .obj (joAppend o1 (.cons room (.str s) rest)))
    (h1 : allValsParse o1 = true) (hbad : pyFloatOfString s = none) :
    p.find_cheapest_room =
      .error (.valueError ("could not convert string to float: " ++ s)) ∧
    (PyError.valueError ("could not convert string to float: " ++ s)).isDataError = true := by
  constructor
  · simp only [RoomProcessor.find_cheapest_room, hsp, pyItems, pybind_ok]
    rw [findCheapestLoop_first_bad_string o1 room s rest .inf "" h1 hbad]
    rfl
  · rfl

/-- Witness for the amended C4 on a concrete one-room mapping with an
unparseable price. -/
theorem find_cheapest_bad_string_data_error_witness :
    (RoomProcessor.mk (.obj (.cons "A" (.str "cheap") .nil)) (.obj .nil) (.obj .nil)
        (.int 1)).find_cheapest_room =
      .error (.valueError ("could not convert string to float: " ++ "cheap")) := by
  exact (find_cheapest_bad_string_data_error _ JObj.nil "A" "cheap" JObj.nil
    (by with_unfolding_all decide) (by with_unfolding_all decide)
    (by with_unfolding_all decide)).1

/-- Counterexample to C2 as stated: `"inf"` is numeric-parseable
(`float("inf")` succeeds), yet on the non-empty mapping `{"A": "inf"}` the
strict-less-than test `inf < inf` never fires, so `find_cheapest_room`
returns room type `""`, which is not a room of the mapping. -/
theorem find_cheapest_inf_leaves_mapping :
    pyFloatFn (.str "inf") = .ok .inf ∧
    (RoomProcessor.mk (.obj (.cons "A" (.str "inf") .nil)) (.obj .nil) (.obj .nil)
        (.int 1)).find_cheapest_room = .ok (mkCheapObj "" .inf (.int 1)) ∧
    (JObj.cons "A" (.str "inf") .nil).hasKey "" = false := by
  refine ⟨by with_unfolding_all decide, by with_unfolding_all decide, by decide⟩

theorem findCheapestLoop_finVals : ∀ (o : JObj) (l : List (String × ℚ)) (c : ℚ) (r : String),
    finValsO o = some l →
    findCheapestLoop o (.fin c) r = .ok (.fin (minFold l c r).1, (minFold l c r).2)
  | .nil, l, c, r, h => by
      simp only [finValsO, Option.some_inj] at h
      subst h
      simp [findCheapestLoop, minFold]
  | .cons k v rest, l, c, r, h => by
      simp only [finValsO] at h
      cases hv : pyFloatFn v with
      | error e => rw [hv] at h; cases h
      | ok x =>
          rw [hv] at h
          cases x with
          | fin q =>
              rcases Option.map_eq_some'.1 h with ⟨l', hrest, hl⟩
              subst hl
              simp only [findCheapestLoop, hv, pybind_ok, minFold]
              by_cases hq : q < c
              · simp only [PyFloat.lt, decide_eq_true_eq, if_pos hq]
                exact findCheapestLoop_finVals rest l' q k hrest
              · simp only [PyFloat.lt, decide_eq_true_eq, if_neg hq]
                exact findCheapestLoop_finVals rest l' c r hrest
          | inf => cases h
          | ninf => cases h
          | nan => cases h

theorem findCheapestLoop_from_inf (o : JObj) (k0 : String) (q0 : ℚ)
    (l' : List (String × ℚ)) (h : finValsO o = some ((k0, q0) :: l')) :
    findCheapestLoop o .inf "" =
      .ok (.fin (minFold l' q0 k0).1, (minFold l' q0 k0).2) := by
  cases o with
  | nil => simp only [finValsO, Option.some_inj] at h; cases h
  | cons k v rest =>
      simp only [finValsO] at h
      cases hv : pyFloatFn v with
      | error e => rw [hv] at h; cases h
      | ok x =>
          rw [hv] at h
          cases x with
          | fin q =>
              rcases Option.map_eq_some'.1 h with ⟨l2, hrest, hl⟩
              cases hl
              simp only [findCheapestLoop, hv, pybind_ok]
              have : PyFloat.lt (.fin q0) .inf = true := rfl
              rw [this, if_pos rfl]
              exact findCheapestLoop_finVals rest l' q0 k0 hrest
          | inf => cases h
          | ninf => cases h
          | nan => cases h

theorem minFold_split : ∀ (l : List (String × ℚ)) (c : ℚ) (r : String),
    (minFold l c r = (c, r) ∧ ∀ p ∈ l, c ≤ p.2) ∨
    (∃ pre room q post, l = pre ++ (room, q) :: post ∧ minFold l c r = (q, room) ∧
      q < c ∧ (∀ p ∈ pre, q < p.2) ∧ ∀ p ∈ l, q ≤ p.2) := by
  intro l
  induction l with
  | nil => intro c r; left; exact ⟨rfl, by simp⟩
  | cons hd tl ih =>
      intro c r
      obtain ⟨k, q⟩ := hd
      by_cases hq : q < c
      · rcases ih q k with ⟨heq, hall⟩ | ⟨pre, room, q2, post, hsplit, heq, hlt, hpre, hall⟩
        · right
          refine ⟨[], k, q, tl, by simp, by simp [minFold, hq, heq], hq, by simp, ?_⟩
          intro p hp
          rcases List.mem_cons.1 hp with h1 | h1
          · rw [h1]
          · exact hall p h1
        · right
          refine ⟨(k, q) :: pre, room, q2, post, by simp [hsplit],
            by simp [minFold, hq, heq], lt_trans hlt hq, ?_, ?_⟩
          · intro p hp
            rcases List.mem_cons.1 hp with h1 | h1
            · rw [h1]; exact hlt
            · exact hpre p h1
          · intro p hp
            rcases List.mem_cons.1 hp with h1 | h1
            · rw [h1]; exact le_of_lt hlt
            · exact hall p h1
      · rcases ih c r with ⟨heq, hall⟩ | ⟨pre, room, q2, post, hsplit, heq, hlt, hpre, hall⟩
        · left
          refine ⟨by simp [minFold, hq, heq], ?_⟩
          intro p hp
          rcases List.mem_cons.1 hp with h1 | h1
          · rw [h1]; exact le_of_not_lt hq
          · exact hall p h1
        · right
          refine ⟨(k, q) :: pre, room, q2, post, by simp [hsplit],
            by simp [minFold, hq, heq], hlt, ?_, ?_⟩
          · intro p hp
            rcases List.mem_cons.1 hp with h1 | h1
            · rw [h1]; exact lt_of_lt_of_le hlt (le_of_not_lt hq)
            · exact hpre p h1
          · intro p hp
            rcases List.mem_cons.1 hp with h1 | h1
            · rw [h1]; exact le_of_lt (lt_of_lt_of_le hlt (le_of_not_lt hq))
            · exact hall p h1

/-- Claim C2 (amended): on a non-empty `shown_price` whose values all
convert to finite floats, `find_cheapest_room` returns a room of the
mapping whose parsed price is a minimum, and every room listed before the
winner has a strictly greater price (strict-less-than tracking keeps the
first room on ties).  (As stated the claim fails for values parsing to
infinite or NaN floats: see the counterexample.) -/
theorem find_cheapest_min_first_order (p : RoomProcessor) (sp : JObj)
    (k0 : String) (q0 : ℚ) (l' : List (String × ℚ))
    (hsp : p.shown_prices = .obj sp) (hl : finValsO sp = some ((k0, q0) :: l')) :
    ∃ pre room q post,
      (k0, q0) :: l' = pre ++ (room, q) :: post ∧
      p.find_cheapest_room =
        .ok (mkCheapObj room (PyFloat.fin q).round2 p.number_of_guests) ∧
      (∀ pr ∈ pre, q < pr.2) ∧ ∀ pr ∈ (k0, q0) :: l', q ≤ pr.2 := by
  have hloop := findCheapestLoop_from_inf sp k0 q0 l' hl
  have hfind : p.find_cheapest_room =
      .ok (mkCheapObj (minFold l' q0 k0).2 (PyFloat.fin (minFold l' q0 k0).1).round2
        p.number_of_guests) := by
    simp only [RoomProcessor.find_cheapest_room, hsp, pyItems, pybind_ok, hloop,
      mkCheapObj]
  rcases minFold_split l' q0 k0 with ⟨heq, hall⟩ | ⟨pre, room, q2, post, hsplit, heq, hlt, hpre, hall⟩
  · refine ⟨[], k0, q0, l', by simp, by rw [hfind, heq], by simp, ?_⟩
    intro pr hpr
    rcases List.mem_cons.1 hpr with h1 | h1
    · rw [h1]
    · exact hall pr h1
  · refine ⟨(k0, q0) :: pre, room, q2, post, by simp [hsplit], by rw [hfind, heq], ?_, ?_⟩
    · intro pr hpr
      rcases List.mem_cons.1 hpr with h1 | h1
      · rw [h1]; exact hlt
      · exact hpre pr h1
    · intro pr hpr
      rcases List.mem_cons.1 hpr with h1 | h1
      · rw [h1]; exact le_of_lt hlt
      · exact hall pr h1

/-- Witness for the amended C2 on the mapping
`{"B": "7.5", "A": "5", "C": "5"}`: the winner is `A`, the first room of
minimum price. -/
theorem find_cheapest_min_first_order_witness :
    ∃ pre room q post,
      [("B", (15 : ℚ)/2), ("A", 5), ("C", 5)] = pre ++ (room, q) :: post ∧
      (RoomProcessor.mk (.obj (JObj.ofList [("B", .str "7.5"), ("A", .str "5"),
          ("C", .str "5")])) (.obj .nil) (.obj .nil) (.int 3)).find_cheapest_room =
        .ok (mkCheapObj room (PyFloat.fin q).round2 (.int 3)) ∧
      (∀ pr ∈ pre, q < pr.2) ∧
      ∀ pr ∈ [("B", (15 : ℚ)/2), ("A", 5), ("C", 5)], q ≤ pr.2 := by
  exact find_cheapest_min_first_order
    (RoomProcessor.mk (.obj (JObj.ofList [("B", .str "7.5"), ("A", .str "5"),
      ("C", .str "5")])) (.obj .nil) (.obj .nil) (.int 3))
    (JObj.ofList [("B", .str "7.5"), ("A", .str "5"), ("C", .str "5")])
    "B" ((15 : ℚ)/2) [("A", 5), ("C", 5)]
    (by with_unfolding_all decide) (by with_unfolding_all decide)

/-! ### Claim C3: `calculate_total_prices` -/

theorem hasKey_dictInsert_ne : ∀ (acc : JObj) (k room : String) (v : JValue), room ≠ k →
    (dictInsert acc k v).hasKey room = acc.hasKey room
  | .nil, k, room, v, h => by
      simp [dictInsert, JObj.hasKey]
      exact fun he => h he.symm
  | .cons k2 v2 rest, k, room, v, h => by
      by_cases h2 : k2 == k
      · simp [dictInsert, JObj.hasKey, h2]
      · simp only [dictInsert, h2, if_neg, Bool.if_false_right, JObj.hasKey]
        rw [hasKey_dictInsert_ne rest k room v h]

theorem calcLoop_does_not_touch : ∀ (o : JObj) (ts : PyFloat) (acc out : JObj) (room : String),
    o.hasKey room = false → calcTotalsLoop o ts acc = .ok out →
    out.lookup room = acc.lookup room
  | .nil, ts, acc, out, room, _, hok => by
      simp only [calcTotalsLoop, Except.ok.injEq] at hok
      rw [← hok]
  | .cons k v rest, ts, acc, out, room, hnk, hok => by
      simp only [JObj.hasKey, Bool.or_eq_false_iff] at hnk
      obtain ⟨hk, hrest⟩ := hnk
      have hkr : room ≠ k := by
        intro he; rw [he] at hk; simp at hk
      simp only [calcTotalsLoop] at hok
      cases hv : pyFloatFn v with
      | error e => rw [hv] at hok; simp at hok
      | ok nv =>
          rw [hv] at hok
          simp only [pybind_ok] at hok
          rw [calcLoop_does_not_touch rest ts _ out room hrest hok]
          exact lookup_dictInsert_ne acc k room _ hkr

theorem calcLoop_lookup : ∀ (o : JObj) (ts : PyFloat) (acc out : JObj) (room : String)
    (netV : JValue),
    nodupKeys o = true → o.lookup room = some netV → acc.hasKey room = false →
    calcTotalsLoop o ts acc = .ok out →
    ∃ nv, pyFloatFn netV = .ok nv ∧
      out.lookup room = some (.obj (.cons "net_price" netV
        (.cons "total_price_with_taxes" (.num ((nv.add ts).round2)) .nil)))
  | .cons k v rest, ts, acc, out, room, netV, hnd, hlook, hacc, hok => by
      simp only [nodupKeys, Bool.and_eq_true, Bool.not_eq_true'] at hnd
      obtain ⟨hknotin, hndrest⟩ := hnd
      simp only [calcTotalsLoop] at hok
      by_cases hk : k == room
      · have hkr : k = room := by simpa using hk
        simp only [JObj.lookup, hk, if_pos, Option.some_inj] at hlook
        cases hv : pyFloatFn v with
        | error e => rw [hv] at hok; simp at hok
        | ok nv =>
            rw [hv] at hok
            simp only [pybind_ok] at hok
            refine ⟨nv, by rw [← hlook]; exact hv, ?_⟩
            rw [hkr] at hknotin hok
            rw [← hlook]
            rw [calcLoop_does_not_touch rest ts _ out room hknotin hok]
            exact lookup_dictInsert_self acc room _
      · simp only [JObj.lookup, hk, if_neg] at hlook
        cases hv : pyFloatFn v with
        | error e => rw [hv] at hok; simp at hok
        | ok nv0 =>
            rw [hv] at hok
            simp only [pybind_ok] at hok
            have hkr : room ≠ k := by
              intro he; rw [he] at hk; simp at hk
            have hacc2 : (dictInsert acc k (.obj (.cons "net_price" v
                (.cons "total_price_with_taxes" (.num ((nv0.add ts).round2)) .nil)))).hasKey
                  room = false := by
              rw [hasKey_dictInsert_ne acc k room _ hkr]; exact hacc
            exact calcLoop_lookup rest ts _ out room netV hndrest (by simpa using hlook)
              hacc2 hok

/-- Claim C3: for every room of `net_price` (keys distinct, as a Python
dict guarantees), the computed entry is the original unconverted net-price
value paired with `round(float(net) + tax_sum, 2)`, where `tax_sum` is the
one sum of all tax amounts. -/
theorem calc_total_prices_formula (p : RoomProcessor) (netO taxO outO : JObj)
    (room : String) (netV : JValue)
    (hnp : p.net_prices = .obj netO) (htx : p.taxes = .obj taxO)
    (hnodup : nodupKeys netO = true) (hlook : netO.lookup room = some netV)
    (hok : p.calculate_total_prices = .ok (.obj outO)) :
    ∃ ts nv, sumTaxes taxO (.fin 0) = .ok ts ∧ pyFloatFn netV = .ok nv ∧
      outO.lookup room = some (.obj (.cons "net_price" netV
        (.cons "total_price_with_taxes" (.num ((nv.add ts).round2)) .nil))) := by
  simp only [RoomProcessor.calculate_total_prices, htx, hnp, pyItems, pybind_ok] at hok
  cases hsum : sumTaxes taxO (.fin 0) with
  | error e => rw [hsum] at hok; simp at hok
  | ok ts =>
      rw [hsum] at hok
      simp only [pybind_ok] at hok
      cases hloop : calcTotalsLoop netO ts .nil with
      | error e => rw [hloop] at hok; simp at hok
      | ok out2 =>
          rw [hloop] at hok
          simp only [pybind_ok, Except.ok.injEq, JValue.obj.injEq] at hok
          subst hok
          obtain ⟨nv, hnv, hres⟩ :=
            calcLoop_lookup netO ts .nil out2 room netV hnodup hlook (by rfl) hloop
          exact ⟨ts, nv, rfl, hnv, hres⟩

/-- Witness for C3 on the Scenario A record: the `Deluxe` entry is the
original string `"130.00"` with total `round(130 + 15, 2) = 145.0`. -/
theorem calc_total_prices_formula_witness :
    ∃ ts nv,
      sumTaxes (JObj.ofList [("vat", .num (.fin 10)), ("city_tax", .num (.fin 5))])
        (.fin 0) = .ok ts ∧
      pyFloatFn (.str "130.00") = .ok nv ∧
      JObj.lookup (JObj.ofList [
        ("Standard", .obj (JObj.ofList [("net_price", .str "90.00"),
          ("total_price_with_taxes", .num (.fin 105))])),
        ("Deluxe", .obj (JObj.ofList [("net_price", .str "130.00"),
          ("total_price_with_taxes", .num (.fin 145))]))]) "Deluxe" =
        some (.obj (.cons "net_price" (.str "130.00")
          (.cons "total_price_with_taxes" (.num ((nv.add ts).round2)) .nil))) := by
  exact calc_total_prices_formula
    (RoomProcessor.mk (.obj .nil)
      (.obj (JObj.ofList [("Standard", .str "90.00"), ("Deluxe", .str "130.00")]))
      (.obj (JObj.ofList [("vat", .num (.fin 10)), ("city_tax", .num (.fin 5))]))
      (.int 2))
    (JObj.ofList [("Standard", .str "90.00"), ("Deluxe", .str "130.00")])
    (JObj.ofList [("vat", .num (.fin 10)), ("city_tax", .num (.fin 5))])
    (JObj.ofList [
      ("Standard", .obj (JObj.ofList [("net_price", .str "90.00"),
        ("total_price_with_taxes", .num (.fin 105))])),
      ("Deluxe", .obj (JObj.ofList [("net_price", .str "130.00"),
        ("total_price_with_taxes", .num (.fin 145))]))])
    "Deluxe" (.str "130.00") rfl rfl (by decide) (by with_unfolding_all decide)
    (by with_unfolding_all decide)

/-! ### Claims C9 and C10: validation gaps -/

theorem validateItem_ok (o : JObj) (sp np g : JValue) (eo : JObj)
    (hkeys : checkKeysPresent (.obj o) requiredKeys = .ok ())
    (hsp : o.lookup "shown_price" = some sp)
    (hsp1 : isDictInst sp = true) (hsp2 : truthy sp = true)
    (hnp : o.lookup "net_price" = some np)
    (hnp1 : isDictInst np = true) (hnp2 : truthy np = true)
    (hg : o.lookup "number_of_guests" = some g) (hgi : isIntInst g = true)
    (hext : o.lookup "ext_data" = some (.obj eo)) (htax : eo.hasKey "taxes" = true) :
    validateItem (.obj o) = .ok () := by
  simp only [validateItem, hkeys, pybind_ok, pyGetItem, hsp, hnp, hg, hext, hsp1, hsp2,
    hnp1, hnp2, hgi, pyContains, htax, Bool.not_true, Bool.or_self, Bool.false_or,
    Bool.or_false, if_false, ite_false]
  simp [isDictInst]

/-- Claim C9: a record otherwise valid whose `number_of_guests` is the
boolean `b` passes validation (Python's `bool` is a subclass of `int`, so
`isinstance(b, int)` holds), and `b` is then emitted unchanged as the
`number_of_guests` of the cheapest-room result. -/
theorem bool_guests_accepted (o : JObj) (b : Bool) (sp np : JValue) (eo : JObj)
    (hkeys : checkKeysPresent (.obj o) requiredKeys = .ok ())
    (hsp : o.lookup "shown_price" = some sp)
    (hsp1 : isDictInst sp = true) (hsp2 : truthy sp = true)
    (hnp : o.lookup "net_price" = some np)
    (hnp1 : isDictInst np = true) (hnp2 : truthy np = true)
    (hg : o.lookup "number_of_guests" = some (.bool b))
    (hext : o.lookup "ext_data" = some (.obj eo)) (htax : eo.hasKey "taxes" = true) :
    isIntInst (.bool b) = true ∧
    validateItem (.obj o) = .ok () ∧
    ∀ proc : RoomProcessor, RoomProcessor.init (.obj o) = .ok proc →
      proc.number_of_guests = .bool b ∧
      ∀ out, proc.find_cheapest_room = .ok out →
        ∃ rt pr, out = mkCheapObj rt pr (.bool b) := by
  refine ⟨rfl, validateItem_ok o sp np (.bool b) eo hkeys hsp hsp1 hsp2 hnp hnp1 hnp2
    hg rfl hext htax, ?_⟩
  intro proc hinit
  simp only [RoomProcessor.init, pyGetItem, hsp, hnp, hg, hext, pybind_ok] at hinit
  cases htv : eo.lookup "taxes" with
  | none => rw [htv] at hinit; simp at hinit
  | some tv =>
      rw [htv] at hinit
      simp only [pybind_ok] at hinit
      cases hjl : jsonLoads tv with
      | error e => rw [hjl] at hinit; simp at hinit
      | ok tx =>
          rw [hjl] at hinit
          simp only [pybind_ok, Except.ok.injEq] at hinit
          have hng : proc.number_of_guests = .bool b := by rw [← hinit]
          refine ⟨hng, ?_⟩
          intro out hout
          simp only [RoomProcessor.find_cheapest_room] at hout
          cases hi : pyItems proc.shown_prices with
          | error e => rw [hi] at hout; simp at hout
          | ok items =>
              rw [hi] at hout
              simp only [pybind_ok] at hout
              cases hr : findCheapestLoop items .inf "" with
              | error e => rw [hr] at hout; simp at hout
              | ok r =>
                  rw [hr] at hout
                  simp only [pybind_ok, Except.ok.injEq] at hout
                  exact ⟨r.2, r.1.round2, by rw [← hout, hng]; rfl⟩

/-- Witness for C9 on a concrete record with `number_of_guests = true`. -/
theorem bool_guests_accepted_witness :
    validateItem (.obj (JObj.ofList [
      ("shown_price", .obj (.cons "A" (.str "5") .nil)),
      ("net_price", .obj (.cons "A" (.str "4") .nil)),
      ("number_of_guests", .bool true),
      ("ext_data", .obj (.cons "taxes" (.str "\x7b\x7d") .nil))])) = .ok () := by
  exact (bool_guests_accepted
    (JObj.ofList [
      ("shown_price", .obj (.cons "A" (.str "5") .nil)),
      ("net_price", .obj (.cons "A" (.str "4") .nil)),
      ("number_of_guests", .bool true),
      ("ext_data", .obj (.cons "taxes" (.str "\x7b\x7d") .nil))])
    true (.obj (.cons "A" (.str "5") .nil)) (.obj (.cons "A" (.str "4") .nil))
    (.cons "taxes" (.str "\x7b\x7d") .nil)
    (by with_unfolding_all decide) (by decide) (by decide) (by decide) (by decide)
    (by decide) (by decide) (by decide) (by decide) (by decide)).2.1

/-- Claim C10: a record whose `ext_data.taxes` is present but not a string
passes load-time validation (the check only requires the key), while
`RoomProcessor` construction then fails with a `TypeError` — not a
`DataError` — because `json.loads` requires a string. -/
theorem nonstring_taxes_typeerror (o : JObj) (sp np g tv : JValue) (eo : JObj)
    (hkeys : checkKeysPresent (.obj o) requiredKeys = .ok ())
    (hsp : o.lookup "shown_price" = some sp)
    (hsp1 : isDictInst sp = true) (hsp2 : truthy sp = true)
    (hnp : o.lookup "net_price" = some np)
    (hnp1 : isDictInst np = true) (hnp2 : truthy np = true)
    (hg : o.lookup "number_of_guests" = some g) (hgi : isIntInst g = true)
    (hext : o.lookup "ext_data" = some (.obj eo))
    (htv : eo.lookup "taxes" = some tv) (hns : ∀ s, tv ≠ .str s) :
    validateItem (.obj o) = .ok () ∧
    ∃ msg, RoomProcessor.init (.obj o) = .error (.typeError msg) ∧
      (PyError.typeError msg).isDataError = false := by
  have htax : eo.hasKey "taxes" = true := hasKey_of_lookup eo "taxes" tv htv
  refine ⟨validateItem_ok o sp np g eo hkeys hsp hsp1 hsp2 hnp hnp1 hnp2 hg hgi hext htax,
    ?_⟩
  have hinit : ∀ msg, jsonLoads tv = .error (.typeError msg) →
      RoomProcessor.init (.obj o) = .error (.typeError msg) := by
    intro msg hjl
    simp only [RoomProcessor.init, pyGetItem, hsp, hnp, hext, htv, pybind_ok, hjl,
      pybind_error]
  cases tv with
  | str s => exact absurd rfl (hns s)
  | null => exact ⟨_, hinit _ rfl, rfl⟩
  | bool b2 => exact ⟨_, hinit _ rfl, rfl⟩
  | int n => exact ⟨_, hinit _ rfl, rfl⟩
  | num x => exact ⟨_, hinit _ rfl, rfl⟩
  | arr xs => exact ⟨_, hinit _ rfl, rfl⟩
  | obj kvs => exact ⟨_, hinit _ rfl, rfl⟩

/-- Witness for C10 on a record whose taxes value is an already-decoded
mapping. -/
theorem nonstring_taxes_typeerror_witness :
    validateItem (.obj (JObj.ofList [
      ("shown_price", .obj (.cons "A" (.str "5") .nil)),
      ("net_price", .obj (.cons "A" (.str "4") .nil)),
      ("number_of_guests", .int 2),
      ("ext_data", .obj (.cons "taxes" (.obj (.cons "vat" (.num (.fin 10)) .nil)) .nil))]))
      = .ok () ∧
    ∃ msg, RoomProcessor.init (.obj (JObj.ofList [
      ("shown_price", .obj (.cons "A" (.str "5") .nil)),
      ("net_price", .obj (.cons "A" (.str "4") .nil)),
      ("number_of_guests", .int 2),
      ("ext_data", .obj (.cons "taxes" (.obj (.cons "vat" (.num (.fin 10)) .nil)) .nil))]))
      = .error (.typeError msg) ∧ (PyError.typeError msg).isDataError = false := by
  exact nonstring_taxes_typeerror
    (JObj.ofList [
      ("shown_price", .obj (.cons "A" (.str "5") .nil)),
      ("net_price", .obj (.cons "A" (.str "4") .nil)),
      ("number_of_guests", .int 2),
      ("ext_data", .obj (.cons "taxes" (.obj (.cons "vat" (.num (.fin 10)) .nil)) .nil))])
    (.obj (.cons "A" (.str "5") .nil)) (.obj (.cons "A" (.str "4") .nil)) (.int 2)
    (.obj (.cons "vat" (.num (.fin 10)) .nil))
    (.cons "taxes" (.obj (.cons "vat" (.num (.fin 10)) .nil)) .nil)
    (by with_unfolding_all decide) (by decide) (by decide) (by decide) (by decide)
    (by decide) (by decide) (by decide) (by decide) (by decide) (by decide)
    (by intro s h; cases h)

/-! ### Claim C5: missing-key errors, in documented order -/

theorem checkKeys_first_missing : ∀ (ks1 : List String) (k : String) (ks2 : List String)
    (io : JObj),
    (∀ k2 ∈ ks1, io.hasKey k2 = true) → io.hasKey k = false →
    checkKeysPresent (.obj io) (ks1 ++ k :: ks2) =
      .error (.valueError (missingKeyMsg k))
  | [], k, ks2, io, _, hmiss => by
      simp [checkKeysPresent, pyContains, hmiss]
  | k2 :: ks1, k, ks2, io, hall, hmiss => by
      have h2 : io.hasKey k2 = true := hall k2 (List.mem_cons_self k2 ks1)
      simp only [List.cons_append, checkKeysPresent, pyContains, h2, pybind_ok, if_true]
      exact checkKeys_first_missing ks1 k ks2 io
        (fun k3 h3 => hall k3 (List.mem_cons_of_mem k2 h3)) hmiss

theorem validateItems_first_error : ∀ (pre : JList) (item : JValue) (post : JList)
    (e : PyError),
    validateItems pre = .ok () → validateItem item = .error e →
    validateItems (jlAppend pre (.cons item post)) = .error e
  | .nil, item, post, e, _, herr => by
      simp only [jlAppend, validateItems, herr, pybind_error]
  | .cons v rest, item, post, e, hpre, herr => by
      simp only [validateItems] at hpre
      cases hv : validateItem v with
      | error e2 => rw [hv] at hpre; simp at hpre
      | ok u =>
          cases u
          rw [hv] at hpre
          simp only [pybind_ok] at hpre
          simp only [jlAppend, validateItems, hv, pybind_ok]
          exact validateItems_first_error rest item post e hpre herr

theorem jlAppend_cons_ne_nil : ∀ (pre : JList) (item : JValue) (post : JList),
    jlAppend pre (.cons item post) ≠ .nil
  | .nil, item, post => by simp [jlAppend]
  | .cons v rest, item, post => by simp [jlAppend]

/-- Claim C5: when the document-level checks pass, every earlier record
validates, and a record (a dict) is missing required key `k` while every
required key checked before `k` is present, `validate_data` raises a
`DataError` whose message names `k` — the first violation in the documented
order raises; nothing is aggregated. -/
theorem missing_key_error_names_key (d : JObj) (pre : JList) (io : JObj) (post : JList)
    (ks1 ks2 : List String) (k : String)
    (har : d.lookup "assignment_results" =
      some (.arr (jlAppend pre (.cons (.obj io) post))))
    (hpre : validateItems pre = .ok ())
    (hsplit : requiredKeys = ks1 ++ k :: ks2)
    (hbefore : ∀ k2 ∈ ks1, io.hasKey k2 = true)
    (hmiss : io.hasKey k = false) :
    validate_data (.obj d) = .error (.valueError (missingKeyMsg k)) ∧
    (PyError.valueError (missingKeyMsg k)).isDataError = true := by
  have hhk : d.hasKey "assignment_results" = true :=
    hasKey_of_lookup d "assignment_results" _ har
  have hitem : validateItem (.obj io) = .error (.valueError (missingKeyMsg k)) := by
    simp only [validateItem, hsplit,
      checkKeys_first_missing ks1 k ks2 io hbefore hmiss, pybind_error]
  have hne : jlAppend pre (.cons (.obj io) post) ≠ .nil :=
    jlAppend_cons_ne_nil pre (.obj io) post
  constructor
  · simp only [validate_data, pyContains, hhk, pybind_ok, if_true, pyGetItem, har,
      isListInst, Bool.not_true, Bool.not_false, if_false, truthy, JValue.toArr]
    have hb : (jlAppend pre (JList.cons (JValue.obj io) post) != JList.nil) = true := by
      simp only [bne_iff_ne, ne_eq]
      exact hne
    simp [hb, validateItems_first_error pre (.obj io) post _ hpre hitem]
  · rfl

/-- Witness for C5: second record lacks `net_price` (while `shown_price`,
checked before it, is present); the error names `net_price`. -/
theorem missing_key_error_names_key_witness :
    validate_data (.obj (.cons "assignment_results" (.arr (.cons scenarioARecord
      (.cons (.obj (.cons "shown_price" (.obj (.cons "A" (.str "5") .nil)) .nil)) .nil)))
      .nil)) = .error (.valueError (missingKeyMsg "net_price")) := by
  exact (missing_key_error_names_key
    (.cons "assignment_results" (.arr (.cons scenarioARecord
      (.cons (.obj (.cons "shown_price" (.obj (.cons "A" (.str "5") .nil)) .nil)) .nil)))
      .nil)
    (.cons scenarioARecord .nil)
    (.cons "shown_price" (.obj (.cons "A" (.str "5") .nil)) .nil)
    .nil ["shown_price"] ["number_of_guests", "ext_data"] "net_price"
    (by with_unfolding_all decide) (by with_unfolding_all decide) rfl
    (by decide) (by decide)).1

/-! ### Claim C7: the `printJson`/`parseJson` round trip.
First, whitespace and digit groundwork. -/

theorem skipWs_cons_neg (c : Char) (cs : List Char) (h : isWsChar c = false) :
    skipWs (c :: cs) = c :: cs := by
  simp [skipWs, List.dropWhile_cons, h]

theorem skipWs_replicate_sp (n : ℕ) : ∀ cs : List Char,
    skipWs (List.replicate n ' ' ++ cs) = skipWs cs := by
  induction n with
  | zero => intro cs; rfl
  | succ n ih =>
      intro cs
      simp only [List.replicate_succ, List.cons_append, skipWs, List.dropWhile_cons]
      simpa [isWsChar, skipWs] using ih cs

theorem skipWs_nlIndent (k : ℕ) (cs : List Char) :
    skipWs (nlIndent k ++ cs) = skipWs cs := by
  simp only [nlIndent, List.cons_append, skipWs, List.dropWhile_cons]
  simpa [isWsChar, skipWs] using skipWs_replicate_sp (4 * k) cs

theorem digitChar_isDigit (d : ℕ) (h : d < 10) : isDigitChar (digitChar d) = true := by
  interval_cases d <;> decide

theorem digitVal_digitChar (d : ℕ) (h : d < 10) : digitVal (digitChar d) = d := by
  interval_cases d <;> decide

theorem isDigit_not_ws (c : Char) (h : isDigitChar c = true) : isWsChar c = false := by
  simp only [isDigitChar, Bool.and_eq_true, decide_eq_true_eq] at h
  simp only [isWsChar, Bool.or_eq_false_iff, beq_eq_false_iff_ne, ne_eq]
  refine ⟨⟨⟨fun he => ?_, fun he => ?_⟩, fun he => ?_⟩, fun he => ?_⟩ <;>
    (rw [he] at h; revert h; decide)

theorem natCharsAux_eq : ∀ (fuel n : ℕ) (acc : List Char), n < fuel →
    natCharsAux fuel n acc =
      (if n = 0 then ['0'] else (Nat.digits 10 n).reverse.map digitChar) ++ acc := by
  intro fuel
  induction fuel with
  | zero => intro n acc h; omega
  | succ fuel ih =>
      intro n acc h
      by_cases h10 : n < 10
      · simp only [natCharsAux, if_pos h10]
        by_cases h0 : n = 0
        · subst h0; rfl
        · have : Nat.digits 10 n = [n] := by
            rw [Nat.digits_def' (by norm_num : 1 < 10) (Nat.pos_of_ne_zero h0)]
            rw [Nat.mod_eq_of_lt h10, Nat.div_eq_of_lt h10]
            simp
          simp [h0, this]
      · have hn0 : n ≠ 0 := by omega
        have hd : n / 10 < fuel := by
          have : n / 10 < n := Nat.div_lt_self (Nat.pos_of_ne_zero hn0) (by norm_num)
          omega
        simp only [natCharsAux, if_neg h10]
        rw [ih (n / 10) (digitChar (n % 10) :: acc) hd]
        have hd0 : n / 10 ≠ 0 := by
          intro he
          have := Nat.div_eq_of_lt (by omega : n < 10)
          omega
        rw [Nat.digits_def' (by norm_num : 1 < 10) (Nat.pos_of_ne_zero hn0)]
        simp [hn0, hd0]

theorem natChars_eq (n : ℕ) :
    natChars n = if n = 0 then ['0'] else (Nat.digits 10 n).reverse.map digitChar := by
  rw [natChars, natCharsAux_eq (n + 1) n [] (Nat.lt_succ_self n), List.append_nil]

theorem natChars_all_digits (n : ℕ) : ∀ c ∈ natChars n, isDigitChar c = true := by
  rw [natChars_eq]
  by_cases h0 : n = 0
  · intro c hc
    rw [if_pos h0] at hc
    simp only [List.mem_singleton] at hc
    subst hc
    decide
  · intro c hc
    rw [if_neg h0] at hc
    simp only [List.mem_map, List.mem_reverse] at hc
    obtain ⟨d, hd, rfl⟩ := hc
    exact digitChar_isDigit d (Nat.digits_lt_base (by norm_num) hd)

theorem natChars_ne_nil (n : ℕ) : natChars n ≠ [] := by
  rw [natChars_eq]
  by_cases h0 : n = 0
  · rw [if_pos h0]; simp
  · rw [if_neg h0]
    simp only [ne_eq, List.map_eq_nil_iff, List.reverse_eq_nil_iff]
    exact Nat.digits_ne_nil_iff_ne_zero.2 h0

theorem foldl_digits_shift : ∀ (ds : List Char) (a : ℕ),
    ds.foldl (fun x c => 10 * x + digitVal c) a = a * 10 ^ ds.length + digitsToNat ds := by
  intro ds
  induction ds with
  | nil => intro a; simp [digitsToNat]
  | cons c ds ih =>
      intro a
      simp only [List.foldl_cons, List.length_cons, digitsToNat]
      rw [ih (10 * a + digitVal c), ih (10 * 0 + digitVal c)]
      ring

theorem digitsToNat_append (xs ys : List Char) :
    digitsToNat (xs ++ ys) = digitsToNat xs * 10 ^ ys.length + digitsToNat ys := by
  simp only [digitsToNat, List.foldl_append]
  rw [foldl_digits_shift ys (List.foldl (fun x c => 10 * x + digitVal c) 0 xs)]
  rfl

theorem digitsToNat_ofDigits : ∀ (L : List ℕ), (∀ d ∈ L, d < 10) →
    digitsToNat (L.reverse.map digitChar) = Nat.ofDigits 10 L := by
  intro L
  induction L with
  | nil => intro _; rfl
  | cons d L ih =>
      intro hall
      simp only [List.reverse_cons, List.map_append, List.map_cons, List.map_nil]
      rw [digitsToNat_append]
      simp only [List.length_cons, List.length_nil, pow_one]
      rw [ih (fun x hx => hall x (List.mem_cons_of_mem d hx))]
      have hd : digitsToNat [digitChar d] = d := by
        simp only [digitsToNat, List.foldl_cons, List.foldl_nil]
        rw [digitVal_digitChar d (hall d (List.mem_cons_self d L))]
        omega
      rw [hd, Nat.ofDigits_cons]
      ring

theorem digitsToNat_natChars (n : ℕ) : digitsToNat (natChars n) = n := by
  rw [natChars_eq]
  by_cases h0 : n = 0
  · simp [h0]; decide
  · rw [if_neg h0, digitsToNat_ofDigits _ (fun d hd => Nat.digits_lt_base (by norm_num) hd),
      Nat.ofDigits_digits]

theorem digitsToNat_replicate_zero : ∀ (k : ℕ) (ds : List Char),
    digitsToNat (List.replicate k '0' ++ ds) = digitsToNat ds := by
  intro k
  induction k with
  | zero => intro ds; rfl
  | succ k ih =>
      intro ds
      simp only [List.replicate_succ, List.cons_append, digitsToNat, List.foldl_cons]
      have : (10 * 0 + digitVal '0') = 0 := by decide
      rw [this]
      exact ih ds

theorem takeWhile_all_append (p : Char → Bool) : ∀ (ds rest : List Char),
    (∀ c ∈ ds, p c = true) → (∀ c cs2, rest = c :: cs2 → p c = false) →
    (ds ++ rest).takeWhile p = ds ∧ (ds ++ rest).dropWhile p = rest := by
  intro ds
  induction ds with
  | nil =>
      intro rest _ hrest
      cases rest with
      | nil => exact ⟨rfl, rfl⟩
      | cons c cs2 =>
          have := hrest c cs2 rfl
          simp [List.takeWhile_cons, List.dropWhile_cons, this]
  | cons d ds ih =>
      intro rest hall hrest
      have hd : p d = true := hall d (List.mem_cons_self d ds)
      have := ih rest (fun c hc => hall c (List.mem_cons_of_mem d hc)) hrest
      simp [List.takeWhile_cons, List.dropWhile_cons, hd, this.1, this.2]

theorem digit_beq_false (c c2 : Char) (hd : isDigitChar c = true)
    (h2 : isDigitChar c2 = false) : (c == c2) = false := by
  rw [beq_eq_false_iff_ne]
  intro he
  rw [he, h2] at hd
  cases hd

theorem headIs_digits_false (c2 : Char) (h2 : isDigitChar c2 = false) :
    ∀ (ds rest : List Char), ds ≠ [] → (∀ c ∈ ds, isDigitChar c = true) →
    headIs c2 (ds ++ rest) = false
  | [], _, hne, _ => absurd rfl hne
  | d :: ds, rest, _, hall => by
      simp only [List.cons_append, headIs]
      exact digit_beq_false d c2 (hall d (List.mem_cons_self d ds)) h2

theorem parseNumber_intChars (n : ℤ) (rest : List Char)
    (hstop : ∀ c cs2, rest = c :: cs2 →
      isDigitChar c = false ∧ c ≠ '.' ∧ c ≠ 'e' ∧ c ≠ 'E') :
    parseNumber (intChars n ++ rest) = some (.int n, rest) := by
  have hddigits := natChars_all_digits n.natAbs
  have hdne := natChars_ne_nil n.natAbs
  have hsplit := takeWhile_all_append isDigitChar (natChars n.natAbs) rest hddigits
    (fun c cs2 hc => (hstop c cs2 hc).1)
  have hdsne : (natChars n.natAbs).isEmpty = false := by
    cases h : natChars n.natAbs with
    | nil => exact absurd h hdne
    | cons a b => rfl
  have hstopdot : headIs '.' rest = false := by
    cases rest with
    | nil => rfl
    | cons c cs2 =>
        simp only [headIs, beq_eq_false_iff_ne]
        exact (hstop c cs2 rfl).2.1
  have hstope : headIs 'e' rest = false := by
    cases rest with
    | nil => rfl
    | cons c cs2 =>
        simp only [headIs, beq_eq_false_iff_ne]
        exact (hstop c cs2 rfl).2.2.1
  have hstopE : headIs 'E' rest = false := by
    cases rest with
    | nil => rfl
    | cons c cs2 =>
        simp only [headIs, beq_eq_false_iff_ne]
        exact (hstop c cs2 rfl).2.2.2
  by_cases hneg : n < 0
  · have hic : intChars n = '-' :: natChars n.natAbs := by
      simp [intChars, hneg]
    rw [hic, List.cons_append]
    have h1 : headIs '-' ('-' :: (natChars n.natAbs ++ rest)) = true := rfl
    simp only [parseNumber, h1, if_true, List.tail_cons, hsplit.1, hsplit.2, hdsne,
      hstopdot, hstope, hstopE, digitsToNat_natChars, Bool.or_self, Bool.false_eq_true,
      if_false, ite_false, ite_true]
    rw [show -(n.natAbs : ℤ) = n by omega]
  · have hic : intChars n = natChars n.natAbs := by
      simp [intChars, hneg]
    rw [hic]
    have hhead : headIs '-' (natChars n.natAbs ++ rest) = false :=
      headIs_digits_false '-' (by decide) _ rest hdne hddigits
    simp only [parseNumber, hhead, Bool.false_eq_true, if_false, hsplit.1, hsplit.2,
      hdsne, hstopdot, hstope, hstopE, Bool.or_self, digitsToNat_natChars, ite_false,
      ite_true]
    rw [show (n.natAbs : ℤ) = n by omega]

theorem decimalRep_spec (q : ℚ) (m : ℤ) (e : ℕ) (h : decimalRep q = some (m, e)) :
    q = (m : ℚ) / 10 ^ e := by
  simp only [decimalRep, Option.map_eq_some'] at h
  obtain ⟨e2, hfind, heq⟩ := h
  have hpred := List.find?_some hfind
  simp only [Prod.mk.injEq] at heq
  obtain ⟨hm, he⟩ := heq
  subst he
  simp only [beq_iff_eq] at hpred
  have h1 : ((q * 10 ^ e2).num : ℚ) = q * 10 ^ e2 := by
    conv_rhs => rw [← Rat.num_div_den (q * 10 ^ e2)]
    rw [hpred]
    simp
  rw [← hm, h1, mul_div_assoc]
  rw [div_self (by positivity : (10 : ℚ) ^ e2 ≠ 0), mul_one]

theorem parseExpPart_stop (neg : Bool) (base : ℚ) (rest : List Char)
    (he : headIs 'e' rest = false) (hE : headIs 'E' rest = false) :
    parseExpPart neg base rest = some (.num (.fin (if neg then -base else base)), rest) := by
  simp [parseExpPart, he, hE]

theorem parseNumber_decChars (m2 : ℕ) (E : ℕ) (hE : 0 < E) (neg : Bool)
    (rest : List Char)
    (hstop : ∀ c cs2, rest = c :: cs2 →
      isDigitChar c = false ∧ c ≠ '.' ∧ c ≠ 'e' ∧ c ≠ 'E') :
    parseNumber ((if neg then ['-'] else []) ++ decChars m2 E ++ rest) =
      some (.num (.fin (if neg then -((m2 : ℚ) / 10 ^ E) else (m2 : ℚ) / 10 ^ E)),
        rest) := by
  have hstopd : ∀ c cs2, rest = c :: cs2 → isDigitChar c = false :=
    fun c cs2 hc => (hstop c cs2 hc).1
  have hstopdot : headIs '.' rest = false := by
    cases rest with
    | nil => rfl
    | cons c cs2 =>
        simp only [headIs, beq_eq_false_iff_ne]
        exact (hstop c cs2 rfl).2.1
  have hstope : headIs 'e' rest = false := by
    cases rest with
    | nil => rfl
    | cons c cs2 =>
        simp only [headIs, beq_eq_false_iff_ne]
        exact (hstop c cs2 rfl).2.2.1
  have hstopE : headIs 'E' rest = false := by
    cases rest with
    | nil => rfl
    | cons c cs2 =>
        simp only [headIs, beq_eq_false_iff_ne]
        exact (hstop c cs2 rfl).2.2.2
  set ds := natChars m2 with hds
  set L := List.replicate (E + 1 - ds.length) '0' ++ ds with hL
  have hdslen : 0 < ds.length := List.length_pos.2 (natChars_ne_nil m2)
  have hLlen : L.length = (E + 1 - ds.length) + ds.length := by
    simp [hL, List.length_append, List.length_replicate]
  have hLge : E + 1 ≤ L.length := by omega
  set d1 := L.take (L.length - E) with hd1
  set d2 := L.drop (L.length - E) with hd2
  have hsplit12 : d1 ++ d2 = L := List.take_append_drop _ L
  have hLdig : ∀ c ∈ L, isDigitChar c = true := by
    intro c hc
    rcases List.mem_append.1 hc with hc | hc
    · rw [List.eq_of_mem_replicate hc]; decide
    · exact natChars_all_digits m2 c hc
  have hd1dig : ∀ c ∈ d1, isDigitChar c = true :=
    fun c hc => hLdig c (List.take_subset _ L hc)
  have hd2dig : ∀ c ∈ d2, isDigitChar c = true :=
    fun c hc => hLdig c (List.drop_subset _ L hc)
  have hd1len : d1.length = L.length - E := by
    rw [hd1, List.length_take]
    omega
  have hd2len : d2.length = E := by
    rw [hd2, List.length_drop]
    omega
  have hd1ne : d1 ≠ [] := by
    intro h
    have := congrArg List.length h
    rw [hd1len] at this
    simp at this
    omega
  have hd2ne : d2 ≠ [] := by
    intro h
    have := congrArg List.length h
    rw [hd2len] at this
    simp at this
    omega
  have hLval : digitsToNat L = m2 := by
    rw [hL, digitsToNat_replicate_zero, hds, digitsToNat_natChars]
  have hval : digitsToNat d1 * 10 ^ E + digitsToNat d2 = m2 := by
    rw [← hd2len, ← digitsToNat_append, hsplit12, hLval]
  have hdec : decChars m2 E = d1 ++ '.' :: d2 := rfl
  have htext : (if neg then ['-'] else []) ++ decChars m2 E ++ rest =
      (if neg then ['-'] else []) ++ (d1 ++ ('.' :: (d2 ++ rest))) := by
    rw [hdec]
    simp [List.append_assoc]
  rw [htext]
  have hsplit1 := takeWhile_all_append isDigitChar d1 ('.' :: (d2 ++ rest)) hd1dig
    (by intro c cs2 hc; cases hc; decide)
  have hsplit2 := takeWhile_all_append isDigitChar d2 rest hd2dig hstopd
  have hd1e : d1.isEmpty = false := by
    cases h : d1 with
    | nil => exact absurd h hd1ne
    | cons a b => rfl
  have hd2e : (List.takeWhile isDigitChar (d2 ++ rest)).isEmpty = false := by
    rw [hsplit2.1]
    cases h : d2 with
    | nil => exact absurd h hd2ne
    | cons a b => rfl
  have harith : (digitsToNat d1 : ℚ) + (digitsToNat d2 : ℚ) / 10 ^ d2.length =
      (m2 : ℚ) / 10 ^ E := by
    rw [hd2len, ← hval]
    push_cast
    field_simp
  cases neg with
  | false =>
      rw [if_neg (by decide : ¬ (false = true)), List.nil_append,
        if_neg (by decide : ¬ (false = true))]
      have hhead : headIs '-' (d1 ++ ('.' :: (d2 ++ rest))) = false :=
        headIs_digits_false '-' (by decide) d1 _ hd1ne hd1dig
      simp only [parseNumber, hhead, Bool.false_eq_true, if_false, hsplit1.1, hsplit1.2,
        hd1e, List.tail_cons, hd2e, ite_false, ite_true]
      have hdot : headIs '.' ('.' :: (d2 ++ rest)) = true := rfl
      simp only [hdot, if_true, List.tail_cons]
      rw [parseExpPart_stop false _ _ (by rw [hsplit2.2]; exact hstope)
        (by rw [hsplit2.2]; exact hstopE)]
      rw [hsplit2.2, if_neg (by decide : ¬ (false = true)), hsplit2.1, harith]
  | true =>
      rw [if_pos rfl, if_pos rfl]
      simp only [List.singleton_append, List.nil_append]
      have hh : headIs '-' ('-' :: (d1 ++ ('.' :: (d2 ++ rest)))) = true := rfl
      simp only [parseNumber, hh, if_true, List.tail_cons, hsplit1.1, hsplit1.2,
        hd1e, hd2e, ite_false, ite_true]
      have hdot : headIs '.' ('.' :: (d2 ++ rest)) = true := rfl
      simp only [hdot, if_true, List.tail_cons]
      rw [parseExpPart_stop true _ _ (by rw [hsplit2.2]; exact hstope)
        (by rw [hsplit2.2]; exact hstopE)]
      rw [hsplit2.2, if_pos rfl, hsplit2.1, harith]
      rfl

theorem parseNumber_intDotZero (m : ℤ) (rest : List Char)
    (hstop : ∀ c cs2, rest = c :: cs2 →
      isDigitChar c = false ∧ c ≠ '.' ∧ c ≠ 'e' ∧ c ≠ 'E') :
    parseNumber ((intChars m ++ ['.', '0']) ++ rest) =
      some (.num (.fin (m : ℚ)), rest) := by
  have hstopd : ∀ c cs2, rest = c :: cs2 → isDigitChar c = false :=
    fun c cs2 hc => (hstop c cs2 hc).1
  have hstope : headIs 'e' rest = false := by
    cases rest with
    | nil => rfl
    | cons c cs2 =>
        simp only [headIs, beq_eq_false_iff_ne]
        exact (hstop c cs2 rfl).2.2.1
  have hstopE : headIs 'E' rest = false := by
    cases rest with
    | nil => rfl
    | cons c cs2 =>
        simp only [headIs, beq_eq_false_iff_ne]
        exact (hstop c cs2 rfl).2.2.2
  have hddigits := natChars_all_digits m.natAbs
  have hdne := natChars_ne_nil m.natAbs
  have hsplit1 := takeWhile_all_append isDigitChar (natChars m.natAbs)
    ('.' :: ('0' :: rest)) hddigits (by intro c cs2 hc; cases hc; decide)
  have h0dig : ∀ c ∈ ['0'], isDigitChar c = true := by
    intro c hc
    simp only [List.mem_singleton] at hc
    subst hc
    decide
  have hsplit2 := takeWhile_all_append isDigitChar ['0'] rest h0dig hstopd
  have hdsne : (natChars m.natAbs).isEmpty = false := by
    cases h : natChars m.natAbs with
    | nil => exact absurd h hdne
    | cons a b => rfl
  have hfse : (List.takeWhile isDigitChar ('0' :: rest)).isEmpty = false := by
    have : ('0' :: rest) = ['0'] ++ rest := rfl
    rw [this, hsplit2.1]
    rfl
  have harith : (↑(digitsToNat (natChars m.natAbs)) : ℚ) +
      ↑(digitsToNat (List.takeWhile isDigitChar ('0' :: rest))) /
        10 ^ (List.takeWhile isDigitChar ('0' :: rest)).length = (m.natAbs : ℚ) := by
    have h00 : ('0' :: rest) = ['0'] ++ rest := rfl
    rw [h00, hsplit2.1, digitsToNat_natChars]
    norm_num
    decide
  by_cases hneg : m < 0
  · have hic : intChars m = '-' :: natChars m.natAbs := by simp [intChars, hneg]
    rw [hic]
    have htext : (('-' :: natChars m.natAbs ++ ['.', '0']) ++ rest) =
        '-' :: (natChars m.natAbs ++ ('.' :: ('0' :: rest))) := by
      simp
    rw [htext]
    have hh : headIs '-' ('-' :: (natChars m.natAbs ++ ('.' :: ('0' :: rest)))) = true := rfl
    simp only [parseNumber, hh, if_true, List.tail_cons, hsplit1.1, hsplit1.2, hdsne,
      ite_false, ite_true]
    have hdot : headIs '.' ('.' :: ('0' :: rest)) = true := rfl
    simp only [hdot, if_true, List.tail_cons, hfse, ite_false]
    have h00 : ('0' :: rest) = ['0'] ++ rest := rfl
    rw [parseExpPart_stop true _ _ (by rw [h00, hsplit2.2]; exact hstope)
      (by rw [h00, hsplit2.2]; exact hstopE)]
    rw [h00, hsplit2.2, ← h00, if_pos rfl, harith]
    have hz : (m.natAbs : ℚ) = -(m : ℚ) := by
      rw [Int.cast_natAbs]
      exact_mod_cast abs_of_neg hneg
    rw [hz, neg_neg]
    rfl
  · have hic : intChars m = natChars m.natAbs := by simp [intChars, hneg]
    rw [hic]
    have htext : ((natChars m.natAbs ++ ['.', '0']) ++ rest) =
        natChars m.natAbs ++ ('.' :: ('0' :: rest)) := by
      simp
    rw [htext]
    have hh : headIs '-' (natChars m.natAbs ++ ('.' :: ('0' :: rest))) = false :=
      headIs_digits_false '-' (by decide) _ _ hdne hddigits
    simp only [parseNumber, hh, Bool.false_eq_true, if_false, hsplit1.1, hsplit1.2,
      hdsne, ite_false, ite_true]
    have hdot : headIs '.' ('.' :: ('0' :: rest)) = true := rfl
    simp only [hdot, if_true, List.tail_cons, hfse, ite_false]
    have h00 : ('0' :: rest) = ['0'] ++ rest := rfl
    rw [parseExpPart_stop false _ _ (by rw [h00, hsplit2.2]; exact hstope)
      (by rw [h00, hsplit2.2]; exact hstopE)]
    rw [h00, hsplit2.2, ← h00, if_neg (by decide : ¬ (false = true)), harith]
    have hz : (m.natAbs : ℚ) = (m : ℚ) := by
      rw [Int.cast_natAbs]
      exact_mod_cast abs_of_nonneg (le_of_not_lt hneg)
    rw [hz]
    rfl

theorem parseNumber_floatChars (q : ℚ) (m : ℤ) (e : ℕ)
    (hrep : decimalRep q = some (m, e)) (rest : List Char)
    (hstop : ∀ c cs2, rest = c :: cs2 →
      isDigitChar c = false ∧ c ≠ '.' ∧ c ≠ 'e' ∧ c ≠ 'E') :
    parseNumber (floatChars (.fin q) ++ rest) = some (.num (.fin q), rest) := by
  have hq := decimalRep_spec q m e hrep
  cases e with
  | zero =>
      have hfc : floatChars (.fin q) = intChars m ++ ['.', '0'] := by
        simp [floatChars, hrep]
      rw [hfc, parseNumber_intDotZero m rest hstop]
      rw [hq]
      norm_num
  | succ e2 =>
      by_cases hm : m < 0
      · have hfc : floatChars (.fin q) = '-' :: decChars m.natAbs (e2 + 1) := by
          simp [floatChars, hrep, hm]
        have htext : floatChars (.fin q) ++ rest =
            (if true then ['-'] else []) ++ decChars m.natAbs (e2 + 1) ++ rest := by
          rw [hfc]; simp
        rw [htext, parseNumber_decChars m.natAbs (e2 + 1) (Nat.succ_pos e2) true rest hstop]
        have hthis : -((m.natAbs : ℚ) / 10 ^ (e2 + 1)) = q := by
          rw [hq]
          have hz : (m.natAbs : ℚ) = -(m : ℚ) := by
            rw [Int.cast_natAbs]
            exact_mod_cast abs_of_neg hm
          rw [hz]
          ring
        rw [if_pos rfl, hthis]
      · have hfc : floatChars (.fin q) = decChars m.natAbs (e2 + 1) := by
          simp [floatChars, hrep, hm]
        have htext : floatChars (.fin q) ++ rest =
            (if false then ['-'] else []) ++ decChars m.natAbs (e2 + 1) ++ rest := by
          rw [hfc]; simp
        rw [htext, parseNumber_decChars m.natAbs (e2 + 1) (Nat.succ_pos e2) false rest hstop]
        have hthis : ((m.natAbs : ℚ) / 10 ^ (e2 + 1)) = q := by
          rw [hq]
          have hz : (m.natAbs : ℚ) = (m : ℚ) := by
            rw [Int.cast_natAbs]
            exact_mod_cast abs_of_nonneg (le_of_not_lt hm)
          rw [hz]
        rw [if_neg (by decide : ¬ (false = true)), hthis]

theorem charEqOfToNat (a b : Char) (h : a.toNat = b.toNat) : a = b :=
  Char.ext (UInt32.ext h)

theorem ofNatAux_toNat (n : Nat) (h : n.isValidChar) : (Char.ofNatAux n h).toNat = n := by
  simp [Char.ofNatAux, Char.toNat, UInt32.toNat, UInt32.ofNatCore]

theorem ofNatAux_self (c : Char) (h : c.toNat.isValidChar) :
    Char.ofNatAux c.toNat h = c :=
  charEqOfToNat _ _ (ofNatAux_toNat _ h)

theorem valid_toNat (c : Char) : c.toNat.isValidChar := by
  have hv := c.valid
  have he : c.toNat = c.val.toNat := rfl
  rcases hv with h1 | ⟨h2, h3⟩
  · exact Or.inl (by omega)
  · exact Or.inr ⟨by omega, by omega⟩

theorem not_surrogate (c : Char) (h : c.toNat ≤ 65535) :
    ¬ (55296 ≤ c.toNat ∧ c.toNat ≤ 56319) := by
  have hv := c.valid
  have he : c.toNat = c.val.toNat := rfl
  rcases hv with h1 | ⟨h2, h3⟩ <;> omega

theorem astral_toNat_big (c : Char) (h : ¬ c.toNat ≤ 65535) :
    65536 ≤ c.toNat ∧ c.toNat < 1114112 := by
  have hv := c.valid
  have he : c.toNat = c.val.toNat := rfl
  rcases hv with h1 | ⟨h2, h3⟩ <;> omega

theorem hexVal_hexChar (d : Nat) (h : d < 16) : hexVal (hexChar d) = some d := by
  interval_cases d <;> rfl

theorem decodeHex_hex4 (n : Nat) (h : n < 65536) :
    decodeHex (hexChar (n / 4096 % 16)) (hexChar (n / 256 % 16))
      (hexChar (n / 16 % 16)) (hexChar (n % 16)) = some n := by
  rw [decodeHex, hexVal_hexChar _ (by omega), hexVal_hexChar _ (by omega),
    hexVal_hexChar _ (by omega), hexVal_hexChar _ (by omega)]
  show some (4096 * (n / 4096 % 16) + 256 * (n / 256 % 16) +
    16 * (n / 16 % 16) + n % 16) = some n
  have ha : 4096 * (n / 4096 % 16) + 256 * (n / 256 % 16) +
      16 * (n / 16 % 16) + n % 16 = n := by
    omega
  rw [ha]

theorem decodeLow_hex4 (m : Nat) (h1 : 56320 ≤ m) (h2 : m ≤ 57343) :
    decodeLow '\\' 'u' (hexChar (m / 4096 % 16)) (hexChar (m / 256 % 16))
      (hexChar (m / 16 % 16)) (hexChar (m % 16)) = some m := by
  rw [decodeLow, if_pos ⟨rfl, rfl⟩, decodeHex_hex4 m (by omega)]
  show (if 56320 ≤ m ∧ m ≤ 57343 then some m else none) = some m
  rw [if_pos ⟨h1, h2⟩]

theorem parseU_hex4 (k : List Char → List Char → Option (String × List Char))
    (acc tail : List Char) (n : Nat) (hn : n < 65536) :
    parseU k acc (hexChar (n / 4096 % 16) :: hexChar (n / 256 % 16) ::
      hexChar (n / 16 % 16) :: hexChar (n % 16) :: tail) =
      (if 55296 ≤ n ∧ n ≤ 56319 then parsePair k acc n tail
       else if h : n.isValidChar then k (Char.ofNatAux n h :: acc) tail
       else none) := by
  simp only [parseU, decodeHex_hex4 n hn]

theorem parsePair_hex4 (k : List Char → List Char → Option (String × List Char))
    (acc tail : List Char) (n m : Nat) (h1 : 56320 ≤ m) (h2 : m ≤ 57343)
    (hv : (65536 + (n - 55296) * 1024 + (m - 56320)).isValidChar) :
    parsePair k acc n ('\\' :: 'u' :: hexChar (m / 4096 % 16) :: hexChar (m / 256 % 16) ::
      hexChar (m / 16 % 16) :: hexChar (m % 16) :: tail) =
      k (Char.ofNatAux (65536 + (n - 55296) * 1024 + (m - 56320)) hv :: acc) tail := by
  simp only [parsePair, decodeLow_hex4 m h1 h2]
  rw [dif_pos hv]

theorem parseStrAux_escChar (c : Char) (f : Nat) (acc tail : List Char) :
    parseStrAux (f + 1) acc (escChar c ++ tail) = parseStrAux f (c :: acc) tail := by
  by_cases hq : c = '\x22'
  · subst hq
    show parseStrAux (f + 1) acc ('\\' :: '\x22' :: tail) = _
    rw [parseStrAux.eq_def]
    simp [namedEsc]
  by_cases hb : c = '\\'
  · subst hb
    show parseStrAux (f + 1) acc ('\\' :: '\\' :: tail) = _
    rw [parseStrAux.eq_def]
    simp [namedEsc]
  by_cases hn : c = '\n'
  · subst hn
    show parseStrAux (f + 1) acc ('\\' :: 'n' :: tail) = _
    rw [parseStrAux.eq_def]
    simp [namedEsc]
  by_cases ht : c = '\t'
  · subst ht
    show parseStrAux (f + 1) acc ('\\' :: 't' :: tail) = _
    rw [parseStrAux.eq_def]
    simp [namedEsc]
  by_cases hr : c = '\r'
  · subst hr
    show parseStrAux (f + 1) acc ('\\' :: 'r' :: tail) = _
    rw [parseStrAux.eq_def]
    simp [namedEsc]
  by_cases h08 : c = '\x08'
  · subst h08
    show parseStrAux (f + 1) acc ('\\' :: 'b' :: tail) = _
    rw [parseStrAux.eq_def]
    simp [namedEsc]
  by_cases h0c : c = '\x0c'
  · subst h0c
    show parseStrAux (f + 1) acc ('\\' :: 'f' :: tail) = _
    rw [parseStrAux.eq_def]
    simp [namedEsc]
  by_cases hbig : c.toNat < 32 || 126 < c.toNat
  · by_cases hbmp : c.toNat ≤ 65535
    · have hesc : escChar c = '\\' :: 'u' :: hex4 c.toNat := by
        simp [escChar, hq, hb, hn, ht, hr, h08, h0c, hbig, hbmp]
      rw [hesc]
      simp only [hex4, List.cons_append, List.nil_append]
      rw [parseStrAux.eq_def]
      simp
      rw [parseU_hex4 _ _ _ c.toNat (by omega), if_neg (not_surrogate c hbmp),
        dif_pos (valid_toNat c), ofNatAux_self]
    · have hlo : 65536 ≤ c.toNat ∧ c.toNat < 1114112 := astral_toNat_big c hbmp
      have hesc : escChar c = '\\' :: 'u' :: (hex4 (55296 + (c.toNat - 65536) / 1024) ++
          '\\' :: 'u' :: hex4 (56320 + (c.toNat - 65536) % 1024)) := by
        simp [escChar, hq, hb, hn, ht, hr, h08, h0c, hbig, hbmp]
      rw [hesc]
      simp only [hex4, List.cons_append, List.nil_append, List.append_assoc]
      rw [parseStrAux.eq_def]
      simp
      have hv : (65536 + (55296 + (c.toNat - 65536) / 1024 - 55296) * 1024 +
          (56320 + (c.toNat - 65536) % 1024 - 56320)).isValidChar := by
        have he : 65536 + (55296 + (c.toNat - 65536) / 1024 - 55296) * 1024 +
            (56320 + (c.toNat - 65536) % 1024 - 56320) = c.toNat := by omega
        rw [he]
        exact valid_toNat c
      rw [parseU_hex4 _ _ _ (55296 + (c.toNat - 65536) / 1024) (by omega),
        if_pos ⟨by omega, by omega⟩,
        parsePair_hex4 _ _ _ _ (56320 + (c.toNat - 65536) % 1024)
          (by omega) (by omega) hv]
      have hc : Char.ofNatAux (65536 + (55296 + (c.toNat - 65536) / 1024 - 55296) * 1024 +
          (56320 + (c.toNat - 65536) % 1024 - 56320)) hv = c := by
        apply charEqOfToNat
        rw [ofNatAux_toNat]
        omega
      rw [hc]
  · have hctl : ¬ (c.toNat < 32) := by
      simp only [Bool.or_eq_true, decide_eq_true_eq, not_or] at hbig
      omega
    have hesc : escChar c = [c] := by
      simp [escChar, hq, hb, hn, ht, hr, h08, h0c, hbig]
    rw [hesc, List.cons_append, parseStrAux.eq_def]
    simp [hq, hb, hctl]

theorem parseStrAux_escape : ∀ (cs : List Char) (f : Nat) (acc rest : List Char),
    cs.length < f →
    parseStrAux f acc (escapeChars cs ++ '\x22' :: rest) =
      some (String.mk (acc.reverse ++ cs), rest)
  | [], f, acc, rest, hf => by
      cases f with
      | zero => simp at hf
      | succ f2 =>
          show parseStrAux (f2 + 1) acc ('\x22' :: rest) = _
          rw [parseStrAux.eq_def]
          simp
  | c :: cs, f, acc, rest, hf => by
      cases f with
      | zero => simp at hf
      | succ f2 =>
          rw [escapeChars, List.append_assoc, parseStrAux_escChar,
            parseStrAux_escape cs f2 (c :: acc) rest (by simp at hf ⊢; omega)]
          simp

theorem escapeChars_length : ∀ cs : List Char, cs.length ≤ (escapeChars cs).length
  | [] => le_refl 0
  | c :: cs => by
      have h1 : 1 ≤ (escChar c).length := by
        rw [escChar]
        repeat' split
        all_goals simp
      have h2 := escapeChars_length cs
      rw [escapeChars]
      simp only [List.length_cons, List.length_append]
      omega

theorem parseStr_strChars (s : String) (rest : List Char) :
    parseStr (escapeChars s.data ++ ('\x22' :: rest)) = some (s, rest) := by
  have hlen : s.data.length < (escapeChars s.data ++ '\x22' :: rest).length + 1 := by
    have h1 := escapeChars_length s.data
    simp only [List.length_append, List.length_cons]
    omega
  rw [parseStr, parseStrAux_escape s.data _ [] rest hlen]
  cases s
  rfl

theorem decChars_head (m2 E : ℕ) :
    ∃ c cs, decChars m2 E = c :: cs ∧ isDigitChar c = true := by
  set ds := natChars m2 with hds
  set L := List.replicate (E + 1 - ds.length) '0' ++ ds with hL
  have hdslen : 0 < ds.length := List.length_pos.2 (natChars_ne_nil m2)
  have hLlen : L.length = (E + 1 - ds.length) + ds.length := by
    simp [hL, List.length_append, List.length_replicate]
  have hLge : E + 1 ≤ L.length := by omega
  have hLdig : ∀ c ∈ L, isDigitChar c = true := by
    intro c hc
    rcases List.mem_append.1 hc with hc | hc
    · rw [List.eq_of_mem_replicate hc]; decide
    · exact natChars_all_digits m2 c hc
  have hd1len : (L.take (L.length - E)).length = L.length - E := by
    rw [List.length_take]
    omega
  have hdec : decChars m2 E = L.take (L.length - E) ++ '.' :: L.drop (L.length - E) :=
    rfl
  cases h1 : L.take (L.length - E) with
  | nil =>
      have := congrArg List.length h1
      rw [hd1len] at this
      simp at this
      omega
  | cons c cs1 =>
      refine ⟨c, cs1 ++ '.' :: L.drop (L.length - E), ?_, ?_⟩
      · rw [hdec, h1]
        rfl
      · exact hLdig c (List.take_subset _ L (h1 ▸ List.mem_cons_self c cs1))

theorem intChars_head_not_ws (n : ℤ) :
    ∃ c cs, intChars n = c :: cs ∧ isWsChar c = false := by
  by_cases hn : n < 0
  · exact ⟨'-', natChars n.natAbs, by simp [intChars, hn], by decide⟩
  · cases h : natChars n.natAbs with
    | nil => exact absurd h (natChars_ne_nil n.natAbs)
    | cons c cs =>
        refine ⟨c, cs, by simp [intChars, hn, h], ?_⟩
        exact isDigit_not_ws c (natChars_all_digits n.natAbs c (h ▸ List.mem_cons_self c cs))

theorem floatChars_head_not_ws (x : PyFloat) :
    ∃ c cs, floatChars x = c :: cs ∧ isWsChar c = false := by
  cases x with
  | inf => exact ⟨'I', _, rfl, by decide⟩
  | ninf => exact ⟨'-', _, rfl, by decide⟩
  | nan => exact ⟨'N', _, rfl, by decide⟩
  | fin q =>
      cases hrep : decimalRep q with
      | none => exact ⟨'0', [], by simp [floatChars, hrep], by decide⟩
      | some me =>
          obtain ⟨m, e⟩ := me
          cases e with
          | zero =>
              obtain ⟨c, cs, hic, hws⟩ := intChars_head_not_ws m
              exact ⟨c, cs ++ ['.', '0'], by simp [floatChars, hrep, hic], hws⟩
          | succ e2 =>
              by_cases hm : m < 0
              · exact ⟨'-', decChars m.natAbs (e2 + 1), by simp [floatChars, hrep, hm],
                  by decide⟩
              · obtain ⟨c, cs, hdc, hdg⟩ := decChars_head m.natAbs (e2 + 1)
                exact ⟨c, cs, by simp [floatChars, hrep, hm, hdc], isDigit_not_ws c hdg⟩

theorem skipWs_printValue (k : ℕ) (v : JValue) (rest : List Char) :
    skipWs (printValue k v ++ rest) = printValue k v ++ rest := by
  cases v with
  | null => exact skipWs_cons_neg _ _ (by decide)
  | bool b => cases b <;> exact skipWs_cons_neg _ _ (by decide)
  | int n =>
      obtain ⟨c, cs, hic, hws⟩ := intChars_head_not_ws n
      rw [printValue, hic, List.cons_append]
      exact skipWs_cons_neg _ _ hws
  | num x =>
      obtain ⟨c, cs, hfc, hws⟩ := floatChars_head_not_ws x
      rw [printValue, hfc, List.cons_append]
      exact skipWs_cons_neg _ _ hws
  | str s => exact skipWs_cons_neg _ _ (by decide)
  | arr xs =>
      cases xs with
      | nil => exact skipWs_cons_neg _ _ (by decide)
      | cons v2 rest2 =>
          rw [printValue, List.cons_append]
          exact skipWs_cons_neg _ _ (by decide)
  | obj kvs =>
      cases kvs with
      | nil => exact skipWs_cons_neg _ _ (by decide)
      | cons k2 v2 rest2 =>
          rw [printValue, List.cons_append]
          exact skipWs_cons_neg _ _ (by decide)

theorem joAppend_nil : ∀ (o : JObj), joAppend o .nil = o
  | .nil => rfl
  | .cons k v rest => by rw [joAppend, joAppend_nil rest]

theorem joAppend_hasKey : ∀ (a b : JObj) (k : String),
    (joAppend a b).hasKey k = (a.hasKey k || b.hasKey k)
  | .nil, b, k => rfl
  | .cons k2 v2 rest, b, k => by
      simp only [joAppend, JObj.hasKey, joAppend_hasKey rest b k, Bool.or_assoc]

theorem joAppend_assoc : ∀ (a b c : JObj),
    joAppend (joAppend a b) c = joAppend a (joAppend b c)
  | .nil, b, c => rfl
  | .cons k v rest, b, c => by
      simp only [joAppend, joAppend_assoc rest b c]

theorem dictInsert_fresh : ∀ (acc : JObj) (k : String) (v : JValue),
    acc.hasKey k = false → dictInsert acc k v = joAppend acc (.cons k v .nil)
  | .nil, k, v, _ => rfl
  | .cons k2 v2 rest, k, v, h => by
      simp only [JObj.hasKey, Bool.or_eq_false_iff] at h
      simp only [dictInsert, h.1, Bool.false_eq_true, if_false, joAppend, ite_false]
      rw [dictInsert_fresh rest k v h.2]

theorem dedupAux_eq : ∀ (o acc : JObj), nodupKeys o = true →
    (∀ k2, o.hasKey k2 = true → acc.hasKey k2 = false) →
    dedupAux acc o = joAppend acc o
  | .nil, acc, _, _ => by rw [dedupAux, joAppend_nil]
  | .cons k v rest, acc, hnd, hdisj => by
      simp only [nodupKeys, Bool.and_eq_true, Bool.not_eq_true'] at hnd
      obtain ⟨hknotin, hndrest⟩ := hnd
      have hacck : acc.hasKey k = false := by
        apply hdisj
        simp [JObj.hasKey]
      rw [dedupAux, dictInsert_fresh acc k v hacck]
      rw [dedupAux_eq rest (joAppend acc (.cons k v .nil)) hndrest ?_]
      · rw [joAppend_assoc]
        rfl
      · intro k2 hk2
        rw [joAppend_hasKey]
        have h1 : acc.hasKey k2 = false := by
          apply hdisj
          simp [JObj.hasKey, hk2]
        have h2 : (JObj.cons k v .nil).hasKey k2 = false := by
          simp only [JObj.hasKey, Bool.or_false]
          rw [beq_eq_false_iff_ne]
          intro he
          rw [he] at hknotin
          rw [hknotin] at hk2
          cases hk2
        rw [h1, h2]
        rfl

theorem dedup_nodup (o : JObj) (h : nodupKeys o = true) : dedup o = o := by
  rw [dedup, dedupAux_eq o .nil h (fun k2 _ => rfl)]
  rfl

theorem digit_beq_false2 (c c2 : Char) (hd : isDigitChar c = true)
    (h2 : isDigitChar c2 = false) : (c2 == c) = false := by
  rw [beq_eq_false_iff_ne]
  intro he
  rw [← he, h2] at hd
  cases hd

theorem skipWs_head_not_ws : ∀ (cs : List Char) (c : Char) (t : List Char),
    skipWs cs = c :: t → isWsChar c = false := by
  intro cs
  induction cs with
  | nil => intro c t h; cases h
  | cons a as ih =>
      intro c t h
      by_cases ha : isWsChar a = true
      · rw [skipWs, List.dropWhile_cons, if_pos ha] at h
        exact ih c t h
      · rw [skipWs, List.dropWhile_cons, if_neg ha] at h
        cases h
        simpa using ha

theorem parseValue_congr_skipWs (f : ℕ) (cs1 cs2 : List Char)
    (h : skipWs cs1 = skipWs cs2) : parseValue f cs1 = parseValue f cs2 := by
  cases f with
  | zero => rfl
  | succ f2 =>
      rw [parseValue, parseValue, h]

theorem intChars_shape (n : ℤ) :
    (∃ c cs2, intChars n = c :: cs2 ∧ isDigitChar c = true) ∨
    (∃ c cs2, intChars n = '-' :: c :: cs2 ∧ isDigitChar c = true) := by
  by_cases hn : n < 0
  · right
    cases h : natChars n.natAbs with
    | nil => exact absurd h (natChars_ne_nil n.natAbs)
    | cons c cs =>
        refine ⟨c, cs, by simp [intChars, hn, h], ?_⟩
        exact natChars_all_digits n.natAbs c (h ▸ List.mem_cons_self c cs)
  · left
    cases h : natChars n.natAbs with
    | nil => exact absurd h (natChars_ne_nil n.natAbs)
    | cons c cs =>
        refine ⟨c, cs, by simp [intChars, hn, h], ?_⟩
        exact natChars_all_digits n.natAbs c (h ▸ List.mem_cons_self c cs)

theorem floatChars_fin_shape (q : ℚ) (m : ℤ) (e : ℕ) (hrep : decimalRep q = some (m, e)) :
    (∃ c cs2, floatChars (.fin q) = c :: cs2 ∧ isDigitChar c = true) ∨
    (∃ c cs2, floatChars (.fin q) = '-' :: c :: cs2 ∧ isDigitChar c = true) := by
  cases e with
  | zero =>
      have hfc : floatChars (.fin q) = intChars m ++ ['.', '0'] := by
        simp [floatChars, hrep]
      rcases intChars_shape m with ⟨c, cs2, h2, hd⟩ | ⟨c, cs2, h2, hd⟩
      · left
        exact ⟨c, cs2 ++ ['.', '0'], by rw [hfc, h2]; rfl, hd⟩
      · right
        exact ⟨c, cs2 ++ ['.', '0'], by rw [hfc, h2]; rfl, hd⟩
  | succ e2 =>
      obtain ⟨c, cs2, hdc, hd⟩ := decChars_head m.natAbs (e2 + 1)
      by_cases hm : m < 0
      · right
        refine ⟨c, cs2, ?_, hd⟩
        simp [floatChars, hrep, hm, hdc]
      · left
        refine ⟨c, cs2, ?_, hd⟩
        simp [floatChars, hrep, hm, hdc]

theorem headIs_of_shape_false (cs rest : List Char) (b : Char)
    (hb1 : isDigitChar b = false) (hb2 : (b == '-') = false)
    (h : (∃ c cs2, cs = c :: cs2 ∧ isDigitChar c = true) ∨
         (∃ c cs2, cs = '-' :: c :: cs2 ∧ isDigitChar c = true)) :
    headIs b (cs ++ rest) = false := by
  rcases h with ⟨c, cs2, h2, hd⟩ | ⟨c, cs2, h2, hd⟩
  · rw [h2, List.cons_append, headIs]
    exact digit_beq_false c b hd hb1
  · rw [h2, List.cons_append, headIs]
    rw [beq_eq_false_iff_ne] at hb2 ⊢
    exact fun he => hb2 he.symm

theorem printValue_head_rb : ∀ (k : ℕ) (v : JValue) (rest : List Char),
    headIs ']' (printValue k v ++ rest) = false := by
  intro k v rest
  cases v with
  | null => rfl
  | bool b => cases b <;> rfl
  | int n =>
      rw [printValue]
      exact headIs_of_shape_false (intChars n) rest ']' (by decide) (by decide)
        (intChars_shape n)
  | num x =>
      cases x with
      | inf => rfl
      | ninf => rfl
      | nan => rfl
      | fin q =>
          cases hrep : decimalRep q with
          | none =>
              have : floatChars (.fin q) = ['0'] := by simp [floatChars, hrep]
              rw [printValue, this]
              rfl
          | some me =>
              obtain ⟨m, e⟩ := me
              rw [printValue]
              exact headIs_of_shape_false (floatChars (.fin q)) rest ']' (by decide)
                (by decide) (floatChars_fin_shape q m e hrep)
  | str s => rfl
  | arr xs => cases xs <;> rfl
  | obj kvs => cases kvs <;> rfl

theorem shape_append (xs rest : List Char)
    (h : (∃ c cs2, xs = c :: cs2 ∧ isDigitChar c = true) ∨
         (∃ c cs2, xs = '-' :: c :: cs2 ∧ isDigitChar c = true)) :
    (∃ c cs2, xs ++ rest = c :: cs2 ∧ isDigitChar c = true) ∨
    (∃ c cs2, xs ++ rest = '-' :: c :: cs2 ∧ isDigitChar c = true) := by
  rcases h with ⟨c, cs2, h2, hd⟩ | ⟨c, cs2, h2, hd⟩
  · left
    exact ⟨c, cs2 ++ rest, by rw [h2]; rfl, hd⟩
  · right
    exact ⟨c, cs2 ++ rest, by rw [h2]; rfl, hd⟩

theorem headIs_shape_false (cs : List Char) (b : Char)
    (hb1 : isDigitChar b = false) (hb2 : (b == '-') = false)
    (h : (∃ c cs2, cs = c :: cs2 ∧ isDigitChar c = true) ∨
         (∃ c cs2, cs = '-' :: c :: cs2 ∧ isDigitChar c = true)) :
    headIs b cs = false := by
  rcases h with ⟨c, cs2, h2, hd⟩ | ⟨c, cs2, h2, hd⟩
  · rw [h2, headIs]
    exact digit_beq_false c b hd hb1
  · rw [h2, headIs]
    rw [beq_eq_false_iff_ne] at hb2 ⊢
    exact fun he => hb2 he.symm

theorem lsw_shape_false (p : Char) (ps : List Char) (cs : List Char)
    (hp1 : isDigitChar p = false) (hp2 : (p == '-') = false)
    (h : (∃ c cs2, cs = c :: cs2 ∧ isDigitChar c = true) ∨
         (∃ c cs2, cs = '-' :: c :: cs2 ∧ isDigitChar c = true)) :
    listStartsWith (p :: ps) cs = false := by
  rcases h with ⟨c, cs2, h2, hd⟩ | ⟨c, cs2, h2, hd⟩
  · rw [h2, listStartsWith, digit_beq_false2 c p hd hp1]
    rfl
  · rw [h2, listStartsWith, hp2]
    rfl

theorem lsw_neg_inf_false (cs : List Char)
    (h : (∃ c cs2, cs = c :: cs2 ∧ isDigitChar c = true) ∨
         (∃ c cs2, cs = '-' :: c :: cs2 ∧ isDigitChar c = true)) :
    listStartsWith ['-', 'I', 'n', 'f', 'i', 'n', 'i', 't', 'y'] cs = false := by
  rcases h with ⟨c, cs2, h2, hd⟩ | ⟨c, cs2, h2, hd⟩
  · rw [h2, listStartsWith, digit_beq_false2 c '-' hd (by decide)]
    rfl
  · rw [h2, listStartsWith, listStartsWith, digit_beq_false2 c 'I' hd (by decide)]
    simp

theorem parseValue_number (f2 : ℕ) (cs : List Char) (hsw : skipWs cs = cs)
    (h : (∃ c cs2, cs = c :: cs2 ∧ isDigitChar c = true) ∨
         (∃ c cs2, cs = '-' :: c :: cs2 ∧ isDigitChar c = true)) :
    parseValue (f2 + 1) cs = parseNumber cs := by
  rw [parseValue, hsw]
  rw [headIs_shape_false cs '\x7b' (by decide) (by decide) h,
    headIs_shape_false cs '[' (by decide) (by decide) h,
    headIs_shape_false cs '\x22' (by decide) (by decide) h,
    lsw_shape_false 't' _ cs (by decide) (by decide) h,
    lsw_shape_false 'f' _ cs (by decide) (by decide) h,
    lsw_shape_false 'n' _ cs (by decide) (by decide) h,
    lsw_shape_false 'N' _ cs (by decide) (by decide) h,
    lsw_shape_false 'I' _ cs (by decide) (by decide) h,
    lsw_neg_inf_false cs h]
  rfl

mutual
theorem rtValue : ∀ (v : JValue) (f : ℕ), jsize v < f → jgood v = true →
    ∀ (k : ℕ) (rest : List Char),
    (∀ c cs2, rest = c :: cs2 →
      isDigitChar c = false ∧ c ≠ '.' ∧ c ≠ 'e' ∧ c ≠ 'E') →
    parseValue f (printValue k v ++ rest) = some (v, rest)
  | .null, f, hf, _, k, rest, _ => by
      cases f with
      | zero => simp [jsize] at hf
      | succ f2 =>
          show parseValue (f2 + 1) ('n' :: 'u' :: 'l' :: 'l' :: rest) = some (.null, rest)
          rw [parseValue]
          simp [headIs, listStartsWith, skipWs, List.dropWhile_cons, isWsChar]
  | .bool b, f, hf, _, k, rest, _ => by
      cases f with
      | zero => simp [jsize] at hf
      | succ f2 =>
          cases b with
          | true =>
              show parseValue (f2 + 1) ('t' :: 'r' :: 'u' :: 'e' :: rest) =
                some (.bool true, rest)
              rw [parseValue]
              simp [headIs, listStartsWith, skipWs, List.dropWhile_cons, isWsChar]
          | false =>
              show parseValue (f2 + 1) ('f' :: 'a' :: 'l' :: 's' :: 'e' :: rest) =
                some (.bool false, rest)
              rw [parseValue]
              simp [headIs, listStartsWith, skipWs, List.dropWhile_cons, isWsChar]
  | .int n, f, hf, _, k, rest, hstop => by
      cases f with
      | zero => simp [jsize] at hf
      | succ f2 =>
          have hsw : skipWs (intChars n ++ rest) = intChars n ++ rest :=
            skipWs_printValue k (.int n) rest
          rw [printValue, parseValue_number f2 (intChars n ++ rest) hsw
            (shape_append _ rest (intChars_shape n))]
          exact parseNumber_intChars n rest hstop
  | .num (.fin q), f, hf, hg, k, rest, hstop => by
      cases f with
      | zero => simp [jsize] at hf
      | succ f2 =>
          simp only [jgood, goodFloat] at hg
          cases hrep : decimalRep q with
          | none => rw [hrep] at hg; cases hg
          | some me =>
              obtain ⟨m, e⟩ := me
              have hsw : skipWs (floatChars (.fin q) ++ rest) =
                  floatChars (.fin q) ++ rest :=
                skipWs_printValue k (.num (.fin q)) rest
              rw [printValue, parseValue_number f2 (floatChars (.fin q) ++ rest) hsw
                (shape_append _ rest (floatChars_fin_shape q m e hrep))]
              exact parseNumber_floatChars q m e hrep rest hstop
  | .num .inf, f, hf, _, k, rest, _ => by
      cases f with
      | zero => simp [jsize] at hf
      | succ f2 =>
          show parseValue (f2 + 1)
            ('I' :: 'n' :: 'f' :: 'i' :: 'n' :: 'i' :: 't' :: 'y' :: rest) =
            some (.num .inf, rest)
          rw [parseValue]
          simp [headIs, listStartsWith, skipWs, List.dropWhile_cons, isWsChar]
  | .num .ninf, f, hf, _, k, rest, _ => by
      cases f with
      | zero => simp [jsize] at hf
      | succ f2 =>
          show parseValue (f2 + 1)
            ('-' :: 'I' :: 'n' :: 'f' :: 'i' :: 'n' :: 'i' :: 't' :: 'y' :: rest) =
            some (.num .ninf, rest)
          rw [parseValue]
          simp [headIs, listStartsWith, skipWs, List.dropWhile_cons, isWsChar]
  | .num .nan, f, hf, _, k, rest, _ => by
      cases f with
      | zero => simp [jsize] at hf
      | succ f2 =>
          show parseValue (f2 + 1) ('N' :: 'a' :: 'N' :: rest) = some (.num .nan, rest)
          rw [parseValue]
          simp [headIs, listStartsWith, skipWs, List.dropWhile_cons, isWsChar]
  | .str s, f, hf, hg, k, rest, _ => by
      cases f with
      | zero => simp [jsize] at hf
      | succ f2 =>
          have h0 : printValue k (.str s) ++ rest =
              '\x22' :: (escapeChars s.data ++ ('\x22' :: rest)) := by
            rw [printValue, strChars]
            simp
          rw [h0, parseValue]
          have hq := parseStr_strChars s rest
          simp [headIs, listStartsWith, skipWs, List.dropWhile_cons, isWsChar, hq]
  | .arr .nil, f, hf, _, k, rest, _ => by
      cases f with
      | zero => simp [jsize] at hf
      | succ f2 =>
          show parseValue (f2 + 1) ('[' :: ']' :: rest) = some (.arr .nil, rest)
          rw [parseValue]
          simp [headIs, listStartsWith, skipWs, List.dropWhile_cons, isWsChar]
  | .arr (.cons v2 xs), f, hf, hg, k, rest, _ => by
      cases f with
      | zero => simp [jsize] at hf
      | succ f2 =>
          have hsz : lsize (.cons v2 xs) < f2 := by
            simp only [jsize] at hf
            omega
          have hg2 : lgood (.cons v2 xs) = true := hg
          have h0 : printValue k (.arr (.cons v2 xs)) ++ rest =
              '[' :: (nlIndent (k + 1) ++ (printValue (k + 1) v2 ++
                (printListRest (k + 1) xs ++ (nlIndent k ++ (']' :: rest))))) := by
            rw [printValue]
            simp
          rw [h0, parseValue]
          rw [skipWs_cons_neg _ _ (by decide)]
          rw [show headIs '\x7b' ('[' :: (nlIndent (k + 1) ++ (printValue (k + 1) v2 ++
            (printListRest (k + 1) xs ++ (nlIndent k ++ (']' :: rest)))))) = false
            from rfl]
          rw [if_neg (by decide : ¬ (false = true))]
          rw [show headIs '[' ('[' :: (nlIndent (k + 1) ++ (printValue (k + 1) v2 ++
            (printListRest (k + 1) xs ++ (nlIndent k ++ (']' :: rest)))))) = true
            from rfl]
          rw [if_pos rfl, List.tail_cons]
          have hcs1 : skipWs (nlIndent (k + 1) ++ (printValue (k + 1) v2 ++
              (printListRest (k + 1) xs ++ (nlIndent k ++ (']' :: rest))))) =
              printValue (k + 1) v2 ++
                (printListRest (k + 1) xs ++ (nlIndent k ++ (']' :: rest))) := by
            rw [skipWs_nlIndent]
            exact skipWs_printValue (k + 1) v2 _
          simp only [hcs1,
            printValue_head_rb (k + 1) v2
              (printListRest (k + 1) xs ++ (nlIndent k ++ (']' :: rest))),
            Bool.false_eq_true, if_false, ite_false,
            rtElems xs v2 f2 hsz hg2 (k + 1) k rest]
  | .obj .nil, f, hf, _, k, rest, _ => by
      cases f with
      | zero => simp [jsize] at hf
      | succ f2 =>
          show parseValue (f2 + 1) ('\x7b' :: '\x7d' :: rest) = some (.obj .nil, rest)
          rw [parseValue]
          simp [headIs, listStartsWith, skipWs, List.dropWhile_cons, isWsChar]
  | .obj (.cons key v2 o), f, hf, hg, k, rest, _ => by
      cases f with
      | zero => simp [jsize] at hf
      | succ f2 =>
          simp only [jgood, Bool.and_eq_true] at hg
          have hnd : nodupKeys (.cons key v2 o) = true := hg.1
          have hog : ogood (.cons key v2 o) = true := hg.2
          have hsz : osize (.cons key v2 o) < f2 := by
            simp only [jsize] at hf
            omega
          have h0 : printValue k (.obj (.cons key v2 o)) ++ rest =
              '\x7b' :: (nlIndent (k + 1) ++ (strChars key ++ (':' :: ' ' ::
                (printValue (k + 1) v2 ++ (printObjRest (k + 1) o ++
                  (nlIndent k ++ ('\x7d' :: rest))))))) := by
            rw [printValue]
            simp
          rw [h0, parseValue]
          rw [skipWs_cons_neg _ _ (by decide)]
          rw [show headIs '\x7b' ('\x7b' :: (nlIndent (k + 1) ++ (strChars key ++
            (':' :: ' ' :: (printValue (k + 1) v2 ++ (printObjRest (k + 1) o ++
              (nlIndent k ++ ('\x7d' :: rest)))))))) = true from rfl]
          rw [if_pos rfl, List.tail_cons]
          have hcs1 : skipWs (nlIndent (k + 1) ++ (strChars key ++ (':' :: ' ' ::
              (printValue (k + 1) v2 ++ (printObjRest (k + 1) o ++
                (nlIndent k ++ ('\x7d' :: rest))))))) =
              strChars key ++ (':' :: ' ' ::
              (printValue (k + 1) v2 ++ (printObjRest (k + 1) o ++
                (nlIndent k ++ ('\x7d' :: rest))))) := by
            rw [skipWs_nlIndent, strChars]
            exact skipWs_cons_neg _ _ (by decide)
          have hbrace : headIs '\x7d' (strChars key ++ (':' :: ' ' ::
              (printValue (k + 1) v2 ++ (printObjRest (k + 1) o ++
                (nlIndent k ++ ('\x7d' :: rest)))))) = false := by
            rw [strChars]
            rfl
          simp only [hcs1, hbrace, Bool.false_eq_true, if_false, ite_false,
            rtPairs o key v2 f2 hsz hog (k + 1) k rest,
            dedup_nodup (.cons key v2 o) hnd]
termination_by v f hf hg k rest hstop => jsize v
decreasing_by all_goals (subst_vars; simp only [jsize, lsize, osize] at *; omega)
theorem rtPairs : ∀ (o : JObj) (key : String) (v : JValue) (f : ℕ),
    osize (.cons key v o) < f → ogood (.cons key v o) = true →
    ∀ (kIn kOut : ℕ) (rest : List Char),
    parsePairs f (strChars key ++ (':' :: ' ' :: (printValue kIn v ++
      (printObjRest kIn o ++ (nlIndent kOut ++ ('\x7d' :: rest)))))) =
      some (.cons key v o, rest)
  | o, key, v, f, hf, hg, kIn, kOut, rest => by
      cases f with
      | zero => simp [osize] at hf
      | succ f2 =>
          rw [ogood, Bool.and_eq_true] at hg
          obtain ⟨hv, ho⟩ := hg
          simp only [osize] at hf
          have h0 : strChars key ++ (':' :: ' ' :: (printValue kIn v ++
              (printObjRest kIn o ++ (nlIndent kOut ++ ('\x7d' :: rest))))) =
              '\x22' :: (escapeChars key.data ++ ('\x22' :: (':' :: ' ' ::
                (printValue kIn v ++ (printObjRest kIn o ++
                  (nlIndent kOut ++ ('\x7d' :: rest))))))) := by
            rw [strChars]
            simp
          have hkq := parseStr_strChars key (':' :: ' ' ::
            (printValue kIn v ++ (printObjRest kIn o ++
              (nlIndent kOut ++ ('\x7d' :: rest)))))
          have hquote : headIs '\x22' ('\x22' :: (escapeChars key.data ++ ('\x22' ::
              (':' :: ' ' :: (printValue kIn v ++ (printObjRest kIn o ++
                (nlIndent kOut ++ ('\x7d' :: rest)))))))) = true := rfl
          have hws : skipWs (':' :: ' ' :: (printValue kIn v ++ (printObjRest kIn o ++
              (nlIndent kOut ++ ('\x7d' :: rest))))) = ':' :: ' ' ::
              (printValue kIn v ++ (printObjRest kIn o ++
              (nlIndent kOut ++ ('\x7d' :: rest)))) :=
            skipWs_cons_neg _ _ (by decide)
          have hcolon : headIs ':' (':' :: ' ' :: (printValue kIn v ++
              (printObjRest kIn o ++ (nlIndent kOut ++ ('\x7d' :: rest))))) =
              true := rfl
          have hvspace : parseValue f2 (' ' :: (printValue kIn v ++
              (printObjRest kIn o ++ (nlIndent kOut ++ ('\x7d' :: rest))))) =
              parseValue f2 (printValue kIn v ++ (printObjRest kIn o ++
                (nlIndent kOut ++ ('\x7d' :: rest)))) :=
            parseValue_congr_skipWs f2 _ _ rfl
          have hstop2 : ∀ c cs2, (printObjRest kIn o ++ (nlIndent kOut ++
              ('\x7d' :: rest))) = c :: cs2 →
              isDigitChar c = false ∧ c ≠ '.' ∧ c ≠ 'e' ∧ c ≠ 'E' := by
            cases o with
            | nil =>
                intro c cs2 h
                rw [printObjRest, List.nil_append, nlIndent, List.cons_append] at h
                injection h with h1 _
                subst h1
                exact ⟨by decide, by decide, by decide, by decide⟩
            | cons k2 v2 o2 =>
                intro c cs2 h
                rw [printObjRest, List.cons_append] at h
                injection h with h1 _
                subst h1
                exact ⟨by decide, by decide, by decide, by decide⟩
          have hval := rtValue v f2 (by omega) hv kIn
            (printObjRest kIn o ++ (nlIndent kOut ++ ('\x7d' :: rest))) hstop2
          rw [h0, parsePairs]
          simp only [hquote, eq_self_iff_true, if_true, ite_true, List.tail_cons, hkq,
            hws, hcolon, hvspace, hval]
          cases o with
          | nil =>
              have hw2 : skipWs (printObjRest kIn .nil ++ (nlIndent kOut ++
                  ('\x7d' :: rest))) = '\x7d' :: rest := by
                rw [printObjRest, List.nil_append, skipWs_nlIndent]
                exact skipWs_cons_neg _ _ (by decide)
              have hnc : headIs ',' ('\x7d' :: rest) = false := rfl
              have hbr : headIs '\x7d' ('\x7d' :: rest) = true := rfl
              simp only [hw2, hnc, hbr, Bool.false_eq_true, if_false, ite_false,
                eq_self_iff_true, if_true, ite_true, List.tail_cons]
          | cons k2 v2 o2 =>
              have hw2 : skipWs (printObjRest kIn (.cons k2 v2 o2) ++ (nlIndent kOut ++
                  ('\x7d' :: rest))) = ',' :: (nlIndent kIn ++ (strChars k2 ++
                  (':' :: ' ' :: (printValue kIn v2 ++ (printObjRest kIn o2 ++
                    (nlIndent kOut ++ ('\x7d' :: rest))))))) := by
                rw [printObjRest]
                have ha : (',' :: nlIndent kIn ++ strChars k2 ++ ':' :: ' ' ::
                    printValue kIn v2 ++ printObjRest kIn o2) ++ (nlIndent kOut ++
                    ('\x7d' :: rest)) = ',' :: (nlIndent kIn ++ (strChars k2 ++
                    (':' :: ' ' :: (printValue kIn v2 ++ (printObjRest kIn o2 ++
                    (nlIndent kOut ++ ('\x7d' :: rest))))))) := by
                  simp
                rw [ha]
                exact skipWs_cons_neg _ _ (by decide)
              have hcomma : headIs ',' (',' :: (nlIndent kIn ++ (strChars k2 ++
                  (':' :: ' ' :: (printValue kIn v2 ++ (printObjRest kIn o2 ++
                    (nlIndent kOut ++ ('\x7d' :: rest)))))))) = true := rfl
              have hskip3 : skipWs (nlIndent kIn ++ (strChars k2 ++
                  (':' :: ' ' :: (printValue kIn v2 ++ (printObjRest kIn o2 ++
                    (nlIndent kOut ++ ('\x7d' :: rest))))))) = strChars k2 ++
                  (':' :: ' ' :: (printValue kIn v2 ++ (printObjRest kIn o2 ++
                    (nlIndent kOut ++ ('\x7d' :: rest))))) := by
                rw [skipWs_nlIndent, strChars]
                exact skipWs_cons_neg _ _ (by decide)
              have hrec := rtPairs o2 k2 v2 f2 (by simp only [osize] at hf ⊢; omega)
                (by rw [ogood, Bool.and_eq_true]
                    rw [ogood, Bool.and_eq_true] at ho
                    exact ho) kIn kOut rest
              simp only [hw2, hcomma, eq_self_iff_true, if_true, ite_true,
                List.tail_cons, hskip3, hrec]
termination_by o key v f hf hg kIn kOut rest => osize (JObj.cons key v o)
decreasing_by all_goals (subst_vars; simp only [jsize, lsize, osize] at *; omega)
theorem rtElems : ∀ (xs : JList) (v : JValue) (f : ℕ),
    lsize (.cons v xs) < f → lgood (.cons v xs) = true →
    ∀ (kIn kOut : ℕ) (rest : List Char),
    parseElems f (printValue kIn v ++ (printListRest kIn xs ++
      (nlIndent kOut ++ (']' :: rest)))) = some (.cons v xs, rest)
  | xs, v, f, hf, hg, kIn, kOut, rest => by
      cases f with
      | zero => simp [lsize] at hf
      | succ f2 =>
          rw [lgood, Bool.and_eq_true] at hg
          obtain ⟨hv, hxs⟩ := hg
          simp only [lsize] at hf
          rw [parseElems]
          have hstop2 : ∀ c cs2, (printListRest kIn xs ++ (nlIndent kOut ++
              (']' :: rest))) = c :: cs2 →
              isDigitChar c = false ∧ c ≠ '.' ∧ c ≠ 'e' ∧ c ≠ 'E' := by
            cases xs with
            | nil =>
                intro c cs2 h
                rw [printListRest, List.nil_append, nlIndent, List.cons_append] at h
                injection h with h1 _
                subst h1
                exact ⟨by decide, by decide, by decide, by decide⟩
            | cons v2 xs2 =>
                intro c cs2 h
                rw [printListRest, List.cons_append] at h
                injection h with h1 _
                subst h1
                exact ⟨by decide, by decide, by decide, by decide⟩
          have hval := rtValue v f2 (by omega) hv kIn
            (printListRest kIn xs ++ (nlIndent kOut ++ (']' :: rest))) hstop2
          simp only [hval]
          cases xs with
          | nil =>
              have hw : skipWs (printListRest kIn .nil ++ (nlIndent kOut ++
                  (']' :: rest))) = ']' :: rest := by
                rw [printListRest, List.nil_append, skipWs_nlIndent]
                exact skipWs_cons_neg _ _ (by decide)
              have hnc : headIs ',' (']' :: rest) = false := rfl
              have hbr : headIs ']' (']' :: rest) = true := rfl
              simp only [hw, hnc, hbr, Bool.false_eq_true, if_false, ite_false,
                eq_self_iff_true, if_true, ite_true, List.tail_cons]
          | cons v2 xs2 =>
              have hw : skipWs (printListRest kIn (.cons v2 xs2) ++ (nlIndent kOut ++
                  (']' :: rest))) = ',' :: (nlIndent kIn ++ (printValue kIn v2 ++
                  (printListRest kIn xs2 ++ (nlIndent kOut ++ (']' :: rest))))) := by
                rw [printListRest]
                have ha : (',' :: nlIndent kIn ++ printValue kIn v2 ++
                    printListRest kIn xs2) ++ (nlIndent kOut ++ (']' :: rest)) =
                    ',' :: (nlIndent kIn ++ (printValue kIn v2 ++
                    (printListRest kIn xs2 ++ (nlIndent kOut ++ (']' :: rest))))) := by
                  simp
                rw [ha]
                exact skipWs_cons_neg _ _ (by decide)
              have hcomma : headIs ',' (',' :: (nlIndent kIn ++ (printValue kIn v2 ++
                  (printListRest kIn xs2 ++ (nlIndent kOut ++ (']' :: rest)))))) =
                  true := rfl
              have hcongr : parseElems f2 (nlIndent kIn ++ (printValue kIn v2 ++
                  (printListRest kIn xs2 ++ (nlIndent kOut ++ (']' :: rest))))) =
                  parseElems f2 (printValue kIn v2 ++ (printListRest kIn xs2 ++
                  (nlIndent kOut ++ (']' :: rest)))) := by
                cases f2 with
                | zero => rfl
                | succ g =>
                    rw [parseElems, parseElems,
                      parseValue_congr_skipWs g _ _ (skipWs_nlIndent kIn _)]
              have hrec := rtElems xs2 v2 f2 (by simp only [lsize] at hf ⊢; omega)
                (by rw [lgood, Bool.and_eq_true]
                    rw [lgood, Bool.and_eq_true] at hxs
                    exact hxs) kIn kOut rest
              simp only [hw, hcomma, eq_self_iff_true, if_true, ite_true,
                List.tail_cons, hcongr, hrec]
termination_by xs v f hf hg kIn kOut rest => lsize (JList.cons v xs)
decreasing_by all_goals (subst_vars; simp only [jsize, lsize, osize] at *; omega)
end

/-! ### Printed length bounds the node count (fuel sufficiency) -/

mutual
theorem printValue_length : ∀ (v : JValue) (k : ℕ),
    jsize v ≤ (printValue k v).length
  | .null, _ => by simp [jsize, printValue]
  | .bool b, _ => by cases b <;> simp [jsize, printValue]
  | .int n, _ => by
      have h : intChars n ≠ [] := by
        rw [intChars]
        split
        · simp
        · exact natChars_ne_nil _
      have h2 := List.length_pos.2 h
      simp only [jsize, printValue]
      omega
  | .num x, _ => by
      cases x with
      | inf => simp [jsize, printValue, floatChars]
      | ninf => simp [jsize, printValue, floatChars]
      | nan => simp [jsize, printValue, floatChars]
      | fin q =>
          have h : 1 ≤ (floatChars (.fin q)).length := by
            cases hrep : decimalRep q with
            | none => simp [floatChars, hrep]
            | some me =>
                obtain ⟨m, e⟩ := me
                cases e with
                | zero => simp [floatChars, hrep]
                | succ e2 =>
                    obtain ⟨c, cs, hd, _⟩ := decChars_head m.natAbs (e2 + 1)
                    simp only [floatChars, hrep]
                    split
                    · simp
                    · rw [hd]
                      simp
          simpa [jsize, printValue] using h
  | .str s, _ => by simp [jsize, printValue, strChars]
  | .arr .nil, _ => by simp [jsize, lsize, printValue]
  | .arr (.cons v rest), k => by
      have h1 := printValue_length v (k + 1)
      have h2 := printListRest_length rest (k + 1)
      simp only [jsize, lsize, printValue, List.length_cons, List.length_append,
        nlIndent, List.length_replicate, List.length_singleton]
      omega
  | .obj .nil, _ => by simp [jsize, osize, printValue]
  | .obj (.cons key v rest), k => by
      have h1 := printValue_length v (k + 1)
      have h2 := printObjRest_length rest (k + 1)
      simp only [jsize, osize, printValue, List.length_cons, List.length_append,
        nlIndent, List.length_replicate, List.length_singleton]
      omega
termination_by v k => jsize v
decreasing_by all_goals (simp only [jsize, lsize, osize]; omega)
theorem printListRest_length : ∀ (xs : JList) (k : ℕ),
    lsize xs ≤ (printListRest k xs).length
  | .nil, _ => by simp [lsize, printListRest]
  | .cons v rest, k => by
      have h1 := printValue_length v k
      have h2 := printListRest_length rest k
      simp only [lsize, printListRest, List.length_cons, List.length_append,
        nlIndent, List.length_replicate]
      omega
termination_by xs k => lsize xs
decreasing_by all_goals (simp only [jsize, lsize, osize]; omega)
theorem printObjRest_length : ∀ (o : JObj) (k : ℕ),
    osize o ≤ (printObjRest k o).length
  | .nil, _ => by simp [osize, printObjRest]
  | .cons key v rest, k => by
      have h1 := printValue_length v k
      have h2 := printObjRest_length rest k
      simp only [osize, printObjRest, List.length_cons, List.length_append,
        nlIndent, List.length_replicate]
      omega
termination_by o k => osize o
decreasing_by all_goals (simp only [jsize, lsize, osize]; omega)
end

/-- `json.loads` recovers every good value from its `json.dump` text. -/
theorem parseJson_printJson (v : JValue) (hg : jgood v = true) :
    parseJson (printJson v) = some v := by
  have hlen : jsize v < (printValue 0 v).length + 1 :=
    Nat.lt_succ_of_le (printValue_length v 0)
  have h := rtValue v ((printValue 0 v).length + 1) hlen hg 0 []
    (fun c cs2 hc => List.noConfusion hc)
  rw [List.append_nil] at h
  rw [parseJson, printJson]
  show (match parseValue ((printValue 0 v).length + 1) (printValue 0 v) with
    | some (v, rest) => if skipWs rest = [] then some v else none
    | none => none) = some v
  rw [h]
  simp [skipWs]

/-- Claim C7: round-trip of the writer.  `save_output` writes the 4-space
indented `json.dump` text of `{cheapest_room, total_prices}` at `path`,
overwriting whatever any previous file system held there and leaving every
other path unchanged, and re-parsing the written text with `json.loads`
yields a value structurally equal to the serialized document.  Strings are
arbitrary — quotes, backslashes, control characters and non-ASCII
characters round-trip through the escapes `json.dump` emits, astral
characters through recombined surrogate pairs.  The hypothesis `jgood`
only asks that object keys be distinct (what a Python `dict` guarantees)
and that finite floats have an exact decimal expansion (true of every
value a double can take) — both hold for every document the processor
hands to the writer. -/
theorem save_output_roundtrip (fs : FileSys) (path : String)
    (cheapest_room total_prices : JValue)
    (hg : jgood (outputDoc cheapest_room total_prices) = true) :
    save_output fs path cheapest_room total_prices path =
      some (printJson (outputDoc cheapest_room total_prices)) ∧
    parseJson (printJson (outputDoc cheapest_room total_prices)) =
      some (outputDoc cheapest_room total_prices) ∧
    ∀ p, p ≠ path → save_output fs path cheapest_room total_prices p = fs p := by
  refine ⟨?_, parseJson_printJson _ hg, ?_⟩
  · simp [save_output]
  · intro p hp
    simp [save_output, hp]

/-- Witness for C7 at the Scenario A results written over a nonempty
file system. -/
theorem save_output_roundtrip_witness :
    jgood (outputDoc scenarioACheapest scenarioATotals) = true ∧
    save_output (save_output emptyFs "output.json" JValue.null JValue.null)
      "output.json" scenarioACheapest scenarioATotals "output.json" =
      some (printJson (outputDoc scenarioACheapest scenarioATotals)) ∧
    parseJson (printJson (outputDoc scenarioACheapest scenarioATotals)) =
      some (outputDoc scenarioACheapest scenarioATotals) ∧
    save_output (save_output emptyFs "output.json" JValue.null JValue.null)
      "output.json" scenarioACheapest scenarioATotals "other.json" =
      save_output emptyFs "output.json" JValue.null JValue.null "other.json" := by
  have hg : jgood (outputDoc scenarioACheapest scenarioATotals) = true := by
    with_unfolding_all decide
  have h := save_output_roundtrip
    (save_output emptyFs "output.json" JValue.null JValue.null)
    "output.json" scenarioACheapest scenarioATotals hg
  exact ⟨hg, h.1, h.2.1, h.2.2 "other.json" (by decide)⟩
